import Mathlib

/-!
Shallow embedding of the fixed-point decimal arithmetic core of
`zetasql/public/numeric_value.cc` (the NUMERIC type N38.9), together with
proofs about the embedded operations.

Conventions of the embedding:
* a `NumericValue` is represented by its packed scaled integer, an `ℤ`
  (the C++ `__int128` value returned by `as_packed_int()`);
* machine-width effects are made explicit with `% 2^w` (unsigned wrap) or
  with `wrapS w` (two's-complement signed wrap);
* strings are lists of ASCII codes (`List ℕ`), bytes are lists of `ℕ < 256`;
* fallible operations return `Option`/`Except`;
* C++ `/` and `%` on signed integers (truncation toward zero) are modelled
  by `Int.tdiv` and `Int.tmod`; C++ unsigned division is `Nat` division.

Functions whose C++ sources live in headers that are not part of this
source snapshot (`fixed_int.h`, `numeric_value.h`) are modelled from the
specification and marked `Modelled from the spec:` in their doc comments.
All other definitions are translated directly from `numeric_value.cc`.
-/

set_option maxRecDepth 20000

namespace ZetasqlNumeric

/-- Maximum number of decimal digits in the integer part of a NUMERIC value
(`kMaxIntegerDigits` in numeric_value.cc). -/
def kMaxIntegerDigits : ℤ := 29

/-- Maximum number of decimal digits in the fractional part of a NUMERIC value
(`kMaxFractionalDigits` in numeric_value.cc). -/
def kMaxFractionalDigits : ℕ := 9

/-- Scale of the NUMERIC type: a packed value `v` represents `v / 10^9`
(`NumericValue::kScalingFactor`). Modelled from the spec: the constant is
declared in `numeric_value.h`, which is outside the visible source; the spec
fixes `scale = 10^9` for N38.9. -/
def kScalingFactor : ℕ := 1000000000

/-- Largest allowed absolute scaled integer. Modelled from the spec:
`internal::kNumericMax` is declared in `numeric_value.h`, outside the visible
source; the spec fixes `MAX_SCALED = 10^38 - 1` for N38.9.  (The constant
`kOverflowThreshold` in `NumericValue::Multiply`, which is in the visible
source, corroborates this value; see `multiply_rounds_and_checks_overflow`.) -/
def kNumericMax : ℕ := 10 ^ 38 - 1

/-- Validity invariant of a packed NUMERIC value. -/
def IsValidNumeric (v : ℤ) : Prop := v.natAbs ≤ kNumericMax

instance (v : ℤ) : Decidable (IsValidNumeric v) := by
  unfold IsValidNumeric; infer_instance

/-- Range check applied when a packed integer is turned into a NumericValue.
Modelled from the spec: `NumericValue::FromPackedInt` lives in
`numeric_value.h`; the spec requires `|scaled_value| ≤ MAX_SCALED`. -/
def FromPackedInt (v : ℤ) : Option ℤ :=
  if v.natAbs ≤ kNumericMax then some v else none

/-- Conversion of an unsigned multi-word magnitude plus sign into a
NumericValue (`NumericValue::FromFixedUint` in numeric_value.cc): the
magnitude must fit in 128 bits and be at most `kNumericMax`, else the
operation reports "numeric overflow".  Since `kNumericMax < 2^127`, the
two checks collapse to the single comparison below. -/
def FromFixedUint (n : ℕ) (negate : Bool) : Option ℤ :=
  if n ≤ kNumericMax then some (if negate then -(n : ℤ) else (n : ℤ)) else none

/-- Public integer constructor of NumericValue: the represented value is the
integer itself, so the packed value is scaled by `10^9`.  Modelled from the
spec: the constructor lives in `numeric_value.h`; the spec's data model says
the stored integer equals `decimal · 10^scale`. -/
def numericFromInt (n : ℤ) : ℤ := n * (kScalingFactor : ℤ)

/-- Overflow pre-check constant of `NumericValue::Multiply`, written exactly as
the word array `{6450984253243169536, 13015503840481697412, 293873587, 0}` of
the `FixedUint<64, 4>` in the source. -/
def kOverflowThreshold : ℕ :=
  6450984253243169536 + 13015503840481697412 * 2 ^ 64 + 293873587 * 2 ^ 128

/-- `NumericValue::Multiply` from numeric_value.cc: multiply the absolute
packed values into a 256-bit product, pre-check against `kOverflowThreshold`,
add `kScalingFactor / 2`, divide by the scale (the division happens on a
`FixedUint<32,5>`, i.e. modulo `2^160`, and the quotient is then truncated to
an `unsigned __int128`), and negate if exactly one input was negative. -/
def Multiply (x y : ℤ) : Option ℤ :=
  let product : ℕ := x.natAbs * y.natAbs
  if product < kOverflowThreshold then
    let p2 : ℕ := (product + kScalingFactor / 2) % 2 ^ 256
    let res : ℕ := p2 % 2 ^ 160
    let v : ℕ := res / kScalingFactor % 2 ^ 128
    some (if (x < 0) ↔ (y < 0) then (v : ℤ) else -(v : ℤ))
  else none

/-- C1: For every pair of NUMERIC values `a` and `b`, `Multiply(a, b)` computes
the 256-bit product of the absolute scaled values, adds `scale/2`, divides by
the scale (half-away-from-zero rounding), with result sign the XOR of the
input signs; it returns the rounded result exactly when the unsigned 256-bit
product is below `MAX_SCALED*scale + scale/2` (which equals the pre-check
constant `kOverflowThreshold`), and returns a "numeric overflow" error
(modelled as `none`) otherwise. -/
theorem multiply_rounds_and_checks_overflow (x y : ℤ)
    (hx : IsValidNumeric x) (hy : IsValidNumeric y) :
    kOverflowThreshold = kNumericMax * kScalingFactor + kScalingFactor / 2 ∧
    (x.natAbs * y.natAbs < kNumericMax * kScalingFactor + kScalingFactor / 2 →
      Multiply x y =
        some ((if (x < 0) ↔ (y < 0) then 1 else -1) *
          (((x.natAbs * y.natAbs + kScalingFactor / 2) / kScalingFactor : ℕ) : ℤ))) ∧
    (kNumericMax * kScalingFactor + kScalingFactor / 2 ≤ x.natAbs * y.natAbs →
      Multiply x y = none) := by
  have hthr : kOverflowThreshold = kNumericMax * kScalingFactor + kScalingFactor / 2 := by
    norm_num [kOverflowThreshold, kNumericMax, kScalingFactor]
  refine ⟨hthr, ?_, ?_⟩
  · intro hlt
    have hguard : x.natAbs * y.natAbs < kOverflowThreshold := by rw [hthr]; exact hlt
    have hsum : x.natAbs * y.natAbs + kScalingFactor / 2 < 2 ^ 160 :=
      lt_of_lt_of_le (Nat.add_lt_add_right hguard _)
        (by norm_num [kOverflowThreshold, kScalingFactor])
    have hsum256 : x.natAbs * y.natAbs + kScalingFactor / 2 < 2 ^ 256 :=
      lt_of_lt_of_le hsum (Nat.pow_le_pow_right (by norm_num) (by norm_num))
    have hq : (x.natAbs * y.natAbs + kScalingFactor / 2) / kScalingFactor < 2 ^ 128 := by
      apply Nat.div_lt_of_lt_mul
      calc x.natAbs * y.natAbs + kScalingFactor / 2
          < kOverflowThreshold + kScalingFactor / 2 := Nat.add_lt_add_right hguard _
        _ ≤ kScalingFactor * 2 ^ 128 := by norm_num [kOverflowThreshold, kScalingFactor]
    unfold Multiply
    rw [if_pos hguard]
    simp only [Nat.mod_eq_of_lt hsum256, Nat.mod_eq_of_lt hsum, Nat.mod_eq_of_lt hq]
    by_cases hsign : (x < 0) ↔ (y < 0)
    · rw [if_pos hsign, if_pos hsign, one_mul]
    · rw [if_neg hsign, if_neg hsign, neg_one_mul]
  · intro hge
    unfold Multiply
    rw [if_neg (by rw [hthr]; omega)]

/-- Witness for `multiply_rounds_and_checks_overflow`, applying it at
`x = 2·10^9` and `y = 3·10^9` (the NUMERIC values 2 and 3). -/
theorem multiply_rounds_and_checks_overflow_witness :
    IsValidNumeric (2000000000 : ℤ) ∧ IsValidNumeric (3000000000 : ℤ) ∧
    (kOverflowThreshold = kNumericMax * kScalingFactor + kScalingFactor / 2 ∧
    ((2000000000 : ℤ).natAbs * (3000000000 : ℤ).natAbs <
        kNumericMax * kScalingFactor + kScalingFactor / 2 →
      Multiply 2000000000 3000000000 =
        some ((if ((2000000000 : ℤ) < 0) ↔ ((3000000000 : ℤ) < 0) then 1 else -1) *
          ((((2000000000 : ℤ).natAbs * (3000000000 : ℤ).natAbs + kScalingFactor / 2) /
              kScalingFactor : ℕ) : ℤ))) ∧
    (kNumericMax * kScalingFactor + kScalingFactor / 2 ≤
        (2000000000 : ℤ).natAbs * (3000000000 : ℤ).natAbs →
      Multiply 2000000000 3000000000 = none)) :=
  ⟨by decide, by decide,
    multiply_rounds_and_checks_overflow 2000000000 3000000000 (by decide) (by decide)⟩

/-- Fast-path helper of `RoundInternal` (`RoundConst32` in numeric_value.cc):
optionally add `divisor/2` toward the sign of the dividend (the C++ source
computes `divisor / 2` and `divisor / -2` with truncating division), then
subtract the truncated remainder of the dividend by the divisor. -/
def RoundConst32 (divisor : ℤ) (round_away_from_zero : Bool) (dividend : ℤ) : ℤ :=
  let d1 : ℤ :=
    if round_away_from_zero then
      (if 0 ≤ dividend then dividend + divisor.tdiv 2 else dividend + divisor.tdiv (-2))
    else dividend
  d1 - d1.tmod divisor

/-- `NumericValue::RoundInternal` from numeric_value.cc: digits at or beyond
the fractional precision leave the value unchanged; digits beyond the integer
precision give zero; otherwise the value is truncated at
`trunc_factor = 10^(9 - digits)` (the entry `kTruncFactors[digits + 29]`),
after an optional half-step of `trunc_factor/2` toward the sign of the value,
and the result is range-checked. The branches for digits 0 to 3 follow the
fast paths of the source. -/
def RoundInternal (v : ℤ) (digits : ℤ) (round_away_from_zero : Bool) : Option ℤ :=
  if (kMaxFractionalDigits : ℤ) ≤ digits then some v
  else if digits < -kMaxIntegerDigits then some 0
  else
    let value : ℤ :=
      if digits = 0 then RoundConst32 1000000000 round_away_from_zero v
      else if digits = 1 then RoundConst32 100000000 round_away_from_zero v
      else if digits = 2 then RoundConst32 10000000 round_away_from_zero v
      else if digits = 3 then RoundConst32 1000000 round_away_from_zero v
      else
        let trunc_factor : ℤ := 10 ^ (38 - (digits + 29)).toNat
        let value1 : ℤ :=
          if round_away_from_zero then
            (if v < 0 then v + -(trunc_factor / 2) else v + trunc_factor / 2)
          else v
        value1 - value1.tmod trunc_factor
    FromPackedInt value

/-- `NumericValue::Round` from numeric_value.cc. -/
def Round (v : ℤ) (digits : ℤ) : Option ℤ := RoundInternal v digits true

/-- `NumericValue::Trunc` from numeric_value.cc (the source calls
`ValueOrDie()` on the result; claim C9 is exactly that the error case is
unreachable, so the embedding keeps the `Option`). -/
def Trunc (v : ℤ) (digits : ℤ) : Option ℤ := RoundInternal v digits false

/-- Closed form of `RoundConst32` for an even positive divisor, with the C++
truncating divisions by `2` and `-2` discharged as hypotheses. -/
theorem roundConst32_formula (v : ℤ) (raz : Bool) (C : ℤ)
    (h2 : C.tdiv 2 = C / 2) (hneg : C.tdiv (-2) = -(C / 2)) :
    RoundConst32 C raz v =
      (if raz then (if v < 0 then v - C / 2 else v + C / 2) else v) -
      ((if raz then (if v < 0 then v - C / 2 else v + C / 2) else v)).tmod C := by
  unfold RoundConst32
  cases raz
  · simp
  · simp only [if_pos]
    by_cases hv : v < 0
    · rw [if_neg (by omega : ¬ (0 : ℤ) ≤ v), if_pos hv, hneg, ← sub_eq_add_neg]
    · rw [if_pos (by omega : (0 : ℤ) ≤ v), if_neg hv, h2]

/-- Unified closed form of `RoundInternal` inside the active digit range: the
four fast paths agree with the generic truncation formula at factor
`10^(9 - digits)`. -/
theorem roundInternal_eq_formula (v d : ℤ) (raz : Bool) (h1 : -29 ≤ d) (h2 : d < 9) :
    RoundInternal v d raz =
      FromPackedInt
        ((if raz then
            (if v < 0 then v - 10 ^ (9 - d).toNat / 2 else v + 10 ^ (9 - d).toNat / 2)
          else v) -
         ((if raz then
            (if v < 0 then v - 10 ^ (9 - d).toNat / 2 else v + 10 ^ (9 - d).toNat / 2)
          else v)).tmod (10 ^ (9 - d).toNat)) := by
  have hn9 : ¬ ((kMaxFractionalDigits : ℤ) ≤ d) := by
    simp only [kMaxFractionalDigits]; push_cast; omega
  have hn29 : ¬ (d < -kMaxIntegerDigits) := by simp only [kMaxIntegerDigits]; omega
  unfold RoundInternal
  rw [if_neg hn9, if_neg hn29]
  congr 1
  by_cases h0 : d = 0
  · subst h0
    rw [if_pos rfl, roundConst32_formula v raz 1000000000 (by decide) (by decide)]
    simp
  by_cases hd1 : d = 1
  · subst hd1
    rw [if_neg (by norm_num), if_pos rfl,
      roundConst32_formula v raz 100000000 (by decide) (by decide)]
    simp
  by_cases hd2 : d = 2
  · subst hd2
    rw [if_neg (by norm_num), if_neg (by norm_num), if_pos rfl,
      roundConst32_formula v raz 10000000 (by decide) (by decide)]
    simp
  by_cases hd3 : d = 3
  · subst hd3
    rw [if_neg (by norm_num), if_neg (by norm_num), if_neg (by norm_num), if_pos rfl,
      roundConst32_formula v raz 1000000 (by decide) (by decide)]
    simp
  · rw [if_neg h0, if_neg hd1, if_neg hd2, if_neg hd3]
    have hexp : ((38 : ℤ) - (d + 29)).toNat = ((9 : ℤ) - d).toNat := by omega
    rw [hexp]
    cases raz
    · simp
    · simp only [if_pos, sub_eq_add_neg]

/-- C5: For every NUMERIC value and digit count `d` with `−29 ≤ d < 9`,
`Round(d)` rounds ties away from zero in both directions: a residual of
exactly half of the truncation factor `10^(9-d)` (stated via the Euclidean
remainder, which equals `factor/2` for ties of either sign) increases the
magnitude by `factor/2` for positive values and likewise (toward `−∞`) for
negative values; in particular `Round(1.2345, 2) = 1.23`,
`Round(1.235, 2) = 1.24`, and `Round(-1.235, 2) = -1.24` on packed values. -/
theorem round_ties_away_from_zero (v d : ℤ) (h1 : -29 ≤ d) (h2 : d < 9)
    (hv : IsValidNumeric v)
    (htie : v % ((10 : ℤ) ^ (9 - d).toNat) = (10 : ℤ) ^ (9 - d).toNat / 2)
    (hrange : v.natAbs + ((10 : ℤ) ^ (9 - d).toNat / 2).natAbs ≤ kNumericMax) :
    (Round v d =
      some (if v < 0 then v - (10 : ℤ) ^ (9 - d).toNat / 2
            else v + (10 : ℤ) ^ (9 - d).toNat / 2)) ∧
    ((if v < 0 then v - (10 : ℤ) ^ (9 - d).toNat / 2
      else v + (10 : ℤ) ^ (9 - d).toNat / 2).natAbs =
      v.natAbs + ((10 : ℤ) ^ (9 - d).toNat / 2).natAbs) ∧
    Round 1234500000 2 = some 1230000000 ∧
    Round 1235000000 2 = some 1240000000 ∧
    Round (-1235000000) 2 = some (-1240000000) := by
  have hfpos : (0 : ℤ) < (10 : ℤ) ^ (9 - d).toNat := pow_pos (by norm_num) _
  have hk : (9 - d).toNat ≠ 0 := by omega
  have hdvd2 : (2 : ℤ) ∣ (10 : ℤ) ^ (9 - d).toNat :=
    dvd_pow (by norm_num) hk
  set f : ℤ := (10 : ℤ) ^ (9 - d).toNat with hf
  have hhalf : 2 * (f / 2) = f := Int.mul_ediv_cancel' hdvd2
  have hhalfpos : 0 ≤ f / 2 := Int.ediv_nonneg (le_of_lt hfpos) (by norm_num)
  have hhalflt : f / 2 < f := by omega
  have hhalfmod : (f / 2) % f = f / 2 := Int.emod_eq_of_lt hhalfpos hhalflt
  have habs : (if v < 0 then v - f / 2 else v + f / 2).natAbs =
      v.natAbs + (f / 2).natAbs := by
    by_cases hv0 : v < 0
    · rw [if_pos hv0]; omega
    · rw [if_neg hv0]; omega
  have hdvdX : f ∣ (if v < 0 then v - f / 2 else v + f / 2) := by
    apply Int.dvd_of_emod_eq_zero
    by_cases hv0 : v < 0
    · rw [if_pos hv0, Int.sub_emod, htie, hhalfmod, sub_self, Int.zero_emod]
    · rw [if_neg hv0, Int.add_emod, htie, hhalfmod]
      have : f / 2 + f / 2 = f := by omega
      rw [this, Int.emod_self]
  have htmod : (if v < 0 then v - f / 2 else v + f / 2).tmod f = 0 :=
    Int.tmod_eq_zero_of_dvd hdvdX
  refine ⟨?_, habs, by decide, by decide, by decide⟩
  rw [Round, roundInternal_eq_formula v d true h1 h2]
  simp only [if_pos]
  rw [← hf, htmod, sub_zero]
  unfold FromPackedInt
  rw [if_pos (by rw [habs]; exact hrange)]

/-- Witness for `round_ties_away_from_zero`, applying it at `v = 5000000`
(the NUMERIC value 0.005) and `d = 2`, a positive tie. -/
theorem round_ties_away_from_zero_witness :
    ((-29 : ℤ) ≤ 2 ∧ (2 : ℤ) < 9 ∧ IsValidNumeric (5000000 : ℤ) ∧
      (5000000 : ℤ) % ((10 : ℤ) ^ ((9 : ℤ) - 2).toNat) =
        (10 : ℤ) ^ ((9 : ℤ) - 2).toNat / 2 ∧
      (5000000 : ℤ).natAbs + ((10 : ℤ) ^ ((9 : ℤ) - 2).toNat / 2).natAbs ≤ kNumericMax) ∧
    (Round 5000000 2 =
      some (if (5000000 : ℤ) < 0 then 5000000 - (10 : ℤ) ^ ((9 : ℤ) - 2).toNat / 2
            else 5000000 + (10 : ℤ) ^ ((9 : ℤ) - 2).toNat / 2)) :=
  ⟨⟨by decide, by decide, by decide, by decide, by decide⟩,
    (round_ties_away_from_zero 5000000 2 (by decide) (by decide) (by decide)
      (by decide) (by decide)).1⟩

/-- C9: Trunc is total: for every valid NUMERIC value `v` and every digit
count `d`, `Trunc(v, d)` returns a valid NUMERIC value and never reports an
error — with rounding away from zero disabled, the result of the shared
rounding routine never exceeds the magnitude of the input, so the final
range check cannot fail. -/
theorem trunc_total (v d : ℤ) (hv : IsValidNumeric v) :
    ∃ r, Trunc v d = some r ∧ IsValidNumeric r := by
  unfold Trunc
  by_cases h9 : (kMaxFractionalDigits : ℤ) ≤ d
  · refine ⟨v, ?_, hv⟩
    unfold RoundInternal; rw [if_pos h9]
  by_cases h29 : d < -kMaxIntegerDigits
  · refine ⟨0, ?_, by decide⟩
    unfold RoundInternal; rw [if_neg h9, if_pos h29]
  · have h1 : -29 ≤ d := by
      simp only [kMaxIntegerDigits] at h29; omega
    have h2 : d < 9 := by
      simp only [kMaxFractionalDigits] at h9; push_cast at h9; omega
    rw [roundInternal_eq_formula v d false h1 h2]
    simp only [Bool.false_eq_true, if_false]
    set f : ℤ := (10 : ℤ) ^ (9 - d).toNat with hf
    have hr : v - v.tmod f = f * v.tdiv f := by
      have h := Int.tdiv_add_tmod v f; linarith
    have habs : (v - v.tmod f).natAbs ≤ v.natAbs := by
      rw [hr, Int.natAbs_mul, Int.natAbs_tdiv, mul_comm]
      exact Nat.div_mul_le_self _ _
    refine ⟨v - v.tmod f, ?_, le_trans habs hv⟩
    unfold FromPackedInt
    rw [if_pos (le_trans habs hv)]

/-- Witness for `trunc_total`, applying it at `v = 1234500000` and
`d = -5`. -/
theorem trunc_total_witness :
    IsValidNumeric (1234500000 : ℤ) ∧
    ∃ r, Trunc 1234500000 (-5) = some r ∧ IsValidNumeric r :=
  ⟨by decide, trunc_total 1234500000 (-5) (by decide)⟩

/-- Two's-complement wrap of an integer into the signed range
`[-half, half)`; `half = 2^(w-1)` models a `w`-bit signed machine word. -/
def wrapSigned (half x : ℤ) : ℤ := (x + half) % (2 * half) - half

theorem wrapSigned_modEq (half x : ℤ) : wrapSigned half x ≡ x [ZMOD 2 * half] := by
  unfold wrapSigned
  calc (x + half) % (2 * half) - half
      ≡ (x + half) - half [ZMOD 2 * half] :=
        Int.ModEq.sub_right half (Int.emod_emod_of_dvd _ dvd_rfl)
    _ = x := by ring

theorem wrapSigned_congr {half x y : ℤ} (h : x ≡ y [ZMOD 2 * half]) :
    wrapSigned half x = wrapSigned half y := by
  unfold wrapSigned
  have : (x + half) % (2 * half) = (y + half) % (2 * half) := Int.ModEq.add_right half h
  rw [this]

theorem wrapSigned_eq_self {half x : ℤ} (h0 : 0 < half) (hlo : -half ≤ x)
    (hhi : x < half) : wrapSigned half x = x := by
  unfold wrapSigned
  rw [Int.emod_eq_of_lt (by omega) (by omega)]
  ring

theorem wrapSigned_bounds {half : ℤ} (x : ℤ) (h0 : 0 < half) :
    -half ≤ wrapSigned half x ∧ wrapSigned half x < half := by
  unfold wrapSigned
  have h1 : 0 ≤ (x + half) % (2 * half) := Int.emod_nonneg _ (by omega)
  have h2 : (x + half) % (2 * half) < 2 * half := Int.emod_lt_of_pos _ (by omega)
  omega

theorem wrapSigned_absorb_left (half x y : ℤ) :
    wrapSigned half (wrapSigned half x + y) = wrapSigned half (x + y) :=
  wrapSigned_congr (Int.ModEq.add_right y (wrapSigned_modEq half x))

theorem wrapSigned_absorb_sub (half x y : ℤ) :
    wrapSigned half (wrapSigned half x - y) = wrapSigned half (x - y) :=
  wrapSigned_congr (Int.ModEq.sub_right y (wrapSigned_modEq half x))

/-- Little-endian byte list (each entry `< 256`) of the low `len` bytes
of `n`. -/
def toBytesLE (len n : ℕ) : List ℕ :=
  (List.range len).map fun i => n / 2 ^ (8 * i) % 256

/-- Legacy NUMERIC sum aggregator state (`NumericValue::Aggregator`): a 128-bit
signed lower part and a 64-bit signed upper part (the represented total is
`sum_upper * 2^128 + sum_lower`). -/
structure Aggregator where
  sum_lower : ℤ
  sum_upper : ℤ
  deriving DecidableEq, Repr

/-- Well-formedness of an `Aggregator` state: both machine words hold
canonical two's-complement values. -/
def Aggregator.WF (a : Aggregator) : Prop :=
  -(2 ^ 127) ≤ a.sum_lower ∧ a.sum_lower < 2 ^ 127 ∧
  -(2 ^ 63) ≤ a.sum_upper ∧ a.sum_upper < 2 ^ 63

instance (a : Aggregator) : Decidable a.WF := by
  unfold Aggregator.WF; infer_instance

/-- Total integer represented by an `Aggregator` state. -/
def Aggregator.val (a : Aggregator) : ℤ := a.sum_upper * 2 ^ 128 + a.sum_lower

/-- `NumericValue::Aggregator::MergeWith` from numeric_value.cc: add the lower
parts with 128-bit wrap; on signed overflow adjust the upper part by `-1` or
`1` according to the sign of the other lower part; then add the upper parts
(64-bit wrap).  The call to `internal::int128_add_overflow` (declared in a
header outside the visible source) is modelled from the spec inline: the
wrapped 128-bit sum, plus a flag that is true iff the mathematical sum leaves
the signed 128-bit range. -/
def Aggregator.MergeWith (self other : Aggregator) : Aggregator :=
  let lower_sum : ℤ := self.sum_lower + other.sum_lower
  let new_lower : ℤ := wrapSigned (2 ^ 127) lower_sum
  let up1 : ℤ :=
    if lower_sum < -(2 ^ 127) ∨ 2 ^ 127 ≤ lower_sum then
      wrapSigned (2 ^ 63) (self.sum_upper + (if other.sum_lower < 0 then -1 else 1))
    else self.sum_upper
  { sum_lower := new_lower, sum_upper := wrapSigned (2 ^ 63) (up1 + other.sum_upper) }

/-- `NumericValue::Aggregator::SerializeAsProtoBytes` from numeric_value.cc:
24 bytes, little-endian `sum_lower` (as unsigned 128-bit) followed by
little-endian `sum_upper` (as unsigned 64-bit). -/
def Aggregator.SerializeAsProtoBytes (a : Aggregator) : List ℕ :=
  let tc : ℕ := (a.sum_lower % 2 ^ 128).toNat
  toBytesLE 8 (tc % 2 ^ 64) ++ toBytesLE 8 (tc / 2 ^ 64) ++
    toBytesLE 8 ((a.sum_upper % 2 ^ 64).toNat)

/-- `NumericValue::Aggregator::GetSum` from numeric_value.cc: error whenever
the upper word is nonzero, otherwise range-check the lower word. -/
def Aggregator.GetSum (a : Aggregator) : Option ℤ :=
  if a.sum_upper ≠ 0 then none else FromPackedInt a.sum_lower

/-- `NumericValue::Aggregator::GetAverage` from numeric_value.cc: reconstruct
the unsigned 192-bit magnitude from `(sum_upper, sum_lower)` — adjusting the
upper part by one when the parts have mixed signs — then divide by `count`
with rounding away from zero and narrow through `FromFixedUint`. -/
def Aggregator.GetAverage (a : Aggregator) (count : ℕ) : Option ℤ :=
  if count = 0 then none
  else
    let kInt128Min : ℤ := -(2 ^ 127)
    let upperAbs0 : ℕ := a.sum_upper.natAbs
    let st : Bool × ℤ × ℕ :=
      if upperAbs0 = 0 then
        (decide (a.sum_lower < 0),
         if a.sum_lower ≠ kInt128Min then (a.sum_lower.natAbs : ℤ) else a.sum_lower,
         upperAbs0)
      else
        let negate : Bool := decide (a.sum_upper < 0)
        let lower : ℤ :=
          if negate ∧ a.sum_lower ≠ kInt128Min then -a.sum_lower else a.sum_lower
        (negate, lower, if lower < 0 then upperAbs0 - 1 else upperAbs0)
    let dividend : ℕ := st.2.2 * 2 ^ 128 + (st.2.1 % 2 ^ 128).toNat
    let dividend2 : ℕ := (dividend + count / 2) / count
    FromFixedUint dividend2 st.1

/-- `NumericValue::SumAggregator::MergeWith` from numeric_value.cc: the state
is a signed 192-bit `FixedInt<64,3>`; merging adds the sums with wrap. -/
def SumAggregatorMergeWith (a b : ℤ) : ℤ := wrapSigned (2 ^ 191) (a + b)

/-- Canonical aggregator state representing a total `t` modulo `2^192`. -/
def aggregatorOfTotal (t : ℤ) : Aggregator :=
  { sum_lower := wrapSigned (2 ^ 127) t,
    sum_upper := wrapSigned (2 ^ 63) ((t - wrapSigned (2 ^ 127) t) / 2 ^ 128) }

theorem aggregatorOfTotal_WF (t : ℤ) : (aggregatorOfTotal t).WF := by
  unfold aggregatorOfTotal Aggregator.WF
  have h1 := @wrapSigned_bounds (2 ^ 127) t (by norm_num)
  have h2 := @wrapSigned_bounds (2 ^ 63) ((t - wrapSigned (2 ^ 127) t) / 2 ^ 128)
    (by norm_num)
  exact ⟨h1.1, h1.2, h2.1, h2.2⟩

theorem aggregatorOfTotal_val_modEq (t : ℤ) :
    (aggregatorOfTotal t).val ≡ t [ZMOD 2 ^ 192] := by
  unfold aggregatorOfTotal Aggregator.val
  set l := wrapSigned (2 ^ 127) t with hl
  have hdvd : (2 ^ 128 : ℤ) ∣ (t - l) := by
    have h := wrapSigned_modEq (2 ^ 127) t
    have : (2 : ℤ) * 2 ^ 127 = 2 ^ 128 := by norm_num
    rw [this] at h
    exact Int.ModEq.dvd h
  obtain ⟨u, hu⟩ := hdvd
  have hdiv : (t - l) / 2 ^ 128 = u := by rw [hu]; exact Int.mul_ediv_cancel_left _ (by norm_num)
  rw [hdiv]
  have hw := wrapSigned_modEq (2 ^ 63) u
  have h64 : (2 : ℤ) * 2 ^ 63 = 2 ^ 64 := by norm_num
  rw [h64] at hw
  obtain ⟨k, hk⟩ := Int.ModEq.dvd hw
  have hwk : wrapSigned (2 ^ 63) u = u - 2 ^ 64 * k := by linarith
  rw [hwk]
  have ht : t = l + 2 ^ 128 * u := by linarith
  calc (u - 2 ^ 64 * k) * 2 ^ 128 + l
      = (l + 2 ^ 128 * u) - 2 ^ 192 * k := by ring
    _ ≡ l + 2 ^ 128 * u [ZMOD 2 ^ 192] := Int.ModEq.symm (Int.modEq_iff_dvd.mpr ⟨-k, by ring⟩)
    _ = t := ht.symm

theorem wrapSigned_shift_up {half x : ℤ} (h0 : 0 < half) (h1 : half ≤ x)
    (h2 : x < 3 * half) : wrapSigned half x = x - 2 * half := by
  have hmod : (x + half) % (2 * half) = x - half := by
    rw [← Int.add_mul_emod_self_left (x + half) (2 * half) (-1),
      (by ring : x + half + 2 * half * (-1) = x - half)]
    exact Int.emod_eq_of_lt (by omega) (by omega)
  unfold wrapSigned
  rw [hmod]
  ring

theorem wrapSigned_shift_down {half x : ℤ} (h0 : 0 < half) (h1 : -(3 * half) ≤ x)
    (h2 : x < -half) : wrapSigned half x = x + 2 * half := by
  have hmod : (x + half) % (2 * half) = x + 3 * half := by
    rw [← Int.add_mul_emod_self_left (x + half) (2 * half) 1,
      (by ring : x + half + 2 * half * 1 = x + 3 * half)]
    exact Int.emod_eq_of_lt (by omega) (by omega)
  unfold wrapSigned
  rw [hmod]
  ring

theorem aggregatorOfTotal_congr {t t' : ℤ} (h : t ≡ t' [ZMOD 2 ^ 192]) :
    aggregatorOfTotal t = aggregatorOfTotal t' := by
  have h128 : t ≡ t' [ZMOD 2 * 2 ^ 127] :=
    Int.ModEq.of_dvd (by norm_num) h
  have hlow : wrapSigned (2 ^ 127) t = wrapSigned (2 ^ 127) t' := wrapSigned_congr h128
  obtain ⟨k, hk⟩ := Int.ModEq.dvd h
  have hdvd : (2 ^ 128 : ℤ) ∣ (t - wrapSigned (2 ^ 127) t) := by
    have hw := wrapSigned_modEq (2 ^ 127) t
    have h2 : (2 : ℤ) * 2 ^ 127 = 2 ^ 128 := by norm_num
    rw [h2] at hw
    exact Int.ModEq.dvd hw
  obtain ⟨u, hu⟩ := hdvd
  have hdiv : (t - wrapSigned (2 ^ 127) t) / 2 ^ 128 = u := by
    rw [hu]; exact Int.mul_ediv_cancel_left _ (by norm_num)
  have ht' : t' - wrapSigned (2 ^ 127) t' = 2 ^ 128 * (u + 2 ^ 64 * k) := by
    rw [← hlow]; linarith
  have hdiv' : (t' - wrapSigned (2 ^ 127) t') / 2 ^ 128 = u + 2 ^ 64 * k := by
    rw [ht']; exact Int.mul_ediv_cancel_left _ (by norm_num)
  unfold aggregatorOfTotal
  rw [hdiv, hdiv', hlow]
  have hupper : wrapSigned (2 ^ 63) u = wrapSigned (2 ^ 63) (u + 2 ^ 64 * k) :=
    wrapSigned_congr (Int.modEq_iff_dvd.mpr ⟨k, by ring⟩)
  rw [hupper]

/-- Characterization of `MergeWith` on well-formed states: the merged state is
the canonical state of the sum of the represented totals. -/
theorem mergeWith_eq_total (a b : Aggregator) (ha : a.WF) (hb : b.WF) :
    a.MergeWith b = aggregatorOfTotal (a.val + b.val) := by
  obtain ⟨hla, hla2, hua, hua2⟩ := ha
  obtain ⟨hlb, hlb2, hub, hub2⟩ := hb
  have hp : (0 : ℤ) < 2 ^ 127 := by positivity
  have hT : a.val + b.val =
      (a.sum_upper + b.sum_upper) * 2 ^ 128 + (a.sum_lower + b.sum_lower) := by
    unfold Aggregator.val; ring
  have hlowc : wrapSigned (2 ^ 127) (a.val + b.val) =
      wrapSigned (2 ^ 127) (a.sum_lower + b.sum_lower) := by
    rw [hT]
    exact wrapSigned_congr (Int.modEq_iff_dvd.mpr ⟨-(a.sum_upper + b.sum_upper),
      by ring⟩)
  by_cases hov : a.sum_lower + b.sum_lower < -(2 ^ 127) ∨
      2 ^ 127 ≤ a.sum_lower + b.sum_lower
  · rcases hov with hneg | hpos
    · -- negative signed overflow: the other lower part must be negative
      have hlbneg : b.sum_lower < 0 := by linarith
      have hS : wrapSigned (2 ^ 127) (a.sum_lower + b.sum_lower) =
          a.sum_lower + b.sum_lower + 2 ^ 128 := by
        have h := wrapSigned_shift_down hp (by linarith) hneg
        rw [h]; ring
      have hsub : a.val + b.val - wrapSigned (2 ^ 127) (a.val + b.val) =
          2 ^ 128 * (a.sum_upper + b.sum_upper - 1) := by
        rw [hlowc, hS, hT]; ring
      have hdivu : (a.val + b.val - wrapSigned (2 ^ 127) (a.val + b.val)) / 2 ^ 128 =
          a.sum_upper + b.sum_upper - 1 := by
        rw [hsub]; exact Int.mul_ediv_cancel_left _ (by norm_num)
      unfold Aggregator.MergeWith aggregatorOfTotal
      simp only [hdivu]
      rw [if_pos (Or.inl hneg), if_pos hlbneg, hlowc, hS]
      simp only [Aggregator.mk.injEq, true_and]
      rw [wrapSigned_absorb_left]
      congr 1
      ring
    · have hlbpos : ¬ (b.sum_lower < 0) := by linarith
      have hS : wrapSigned (2 ^ 127) (a.sum_lower + b.sum_lower) =
          a.sum_lower + b.sum_lower - 2 ^ 128 := by
        have h := wrapSigned_shift_up hp hpos (by linarith)
        rw [h]; ring
      have hsub : a.val + b.val - wrapSigned (2 ^ 127) (a.val + b.val) =
          2 ^ 128 * (a.sum_upper + b.sum_upper + 1) := by
        rw [hlowc, hS, hT]; ring
      have hdivu : (a.val + b.val - wrapSigned (2 ^ 127) (a.val + b.val)) / 2 ^ 128 =
          a.sum_upper + b.sum_upper + 1 := by
        rw [hsub]; exact Int.mul_ediv_cancel_left _ (by norm_num)
      unfold Aggregator.MergeWith aggregatorOfTotal
      simp only [hdivu]
      rw [if_pos (Or.inr hpos), if_neg hlbpos, hlowc, hS]
      simp only [Aggregator.mk.injEq, true_and]
      rw [wrapSigned_absorb_left]
      congr 1
      ring
  · push_neg at hov
    have hS : wrapSigned (2 ^ 127) (a.sum_lower + b.sum_lower) =
        a.sum_lower + b.sum_lower :=
      wrapSigned_eq_self hp hov.1 hov.2
    have hsub : a.val + b.val - wrapSigned (2 ^ 127) (a.val + b.val) =
        2 ^ 128 * (a.sum_upper + b.sum_upper) := by
      rw [hlowc, hS, hT]; ring
    have hdivu : (a.val + b.val - wrapSigned (2 ^ 127) (a.val + b.val)) / 2 ^ 128 =
        a.sum_upper + b.sum_upper := by
      rw [hsub]; exact Int.mul_ediv_cancel_left _ (by norm_num)
    unfold Aggregator.MergeWith aggregatorOfTotal
    have hovf : ¬ (a.sum_lower + b.sum_lower < -(2 ^ 127) ∨
        2 ^ 127 ≤ a.sum_lower + b.sum_lower) := by
      push_neg; exact hov
    simp only [hdivu]
    rw [if_neg hovf, hlowc, hS]

/-- C8: Aggregator merge is associative: for all well-formed aggregator states
(which include every state reachable by add/subtract sequences), merging
`a` with `merge(b, c)` and merging `merge(a, b)` with `c` produce equal (hence
byte-equal serialized) states and equal results from the terminal sum and
average queries; the same holds for the `SumAggregator` whose merge is a
wrapping 192-bit addition. -/
theorem aggregator_merge_associative (a b c : Aggregator)
    (ha : a.WF) (hb : b.WF) (hc : c.WF) :
    (a.MergeWith (b.MergeWith c) = (a.MergeWith b).MergeWith c) ∧
    ((a.MergeWith (b.MergeWith c)).SerializeAsProtoBytes =
      ((a.MergeWith b).MergeWith c).SerializeAsProtoBytes) ∧
    ((a.MergeWith (b.MergeWith c)).GetSum = ((a.MergeWith b).MergeWith c).GetSum) ∧
    (∀ count : ℕ, (a.MergeWith (b.MergeWith c)).GetAverage count =
      ((a.MergeWith b).MergeWith c).GetAverage count) ∧
    (∀ s1 s2 s3 : ℤ, SumAggregatorMergeWith s1 (SumAggregatorMergeWith s2 s3) =
      SumAggregatorMergeWith (SumAggregatorMergeWith s1 s2) s3) := by
  have hbc := mergeWith_eq_total b c hb hc
  have hab := mergeWith_eq_total a b ha hb
  have key : a.MergeWith (b.MergeWith c) = (a.MergeWith b).MergeWith c := by
    rw [hbc, hab, mergeWith_eq_total a _ ha (aggregatorOfTotal_WF _),
      mergeWith_eq_total _ c (aggregatorOfTotal_WF _) hc]
    apply aggregatorOfTotal_congr
    have h1 := aggregatorOfTotal_val_modEq (b.val + c.val)
    have h2 := aggregatorOfTotal_val_modEq (a.val + b.val)
    calc a.val + (aggregatorOfTotal (b.val + c.val)).val
        ≡ a.val + (b.val + c.val) [ZMOD 2 ^ 192] := Int.ModEq.add_left _ h1
      _ = (a.val + b.val) + c.val := by ring
      _ ≡ (aggregatorOfTotal (a.val + b.val)).val + c.val [ZMOD 2 ^ 192] :=
          Int.ModEq.add_right _ h2.symm
  refine ⟨key, by rw [key], by rw [key], fun count => by rw [key], fun s1 s2 s3 => ?_⟩
  unfold SumAggregatorMergeWith
  have hL : wrapSigned (2 ^ 191) (s1 + wrapSigned (2 ^ 191) (s2 + s3)) =
      wrapSigned (2 ^ 191) (s1 + (s2 + s3)) :=
    wrapSigned_congr (Int.ModEq.add_left s1 (wrapSigned_modEq _ _))
  have hR : wrapSigned (2 ^ 191) (wrapSigned (2 ^ 191) (s1 + s2) + s3) =
      wrapSigned (2 ^ 191) (s1 + s2 + s3) := wrapSigned_absorb_left _ _ _
  rw [hL, hR]
  congr 1
  ring

set_option maxRecDepth 20000 in
/-- Witness for `aggregator_merge_associative`, applying it at three concrete
well-formed states. -/
theorem aggregator_merge_associative_witness :
    (Aggregator.WF ⟨2 ^ 126, 3⟩ ∧ Aggregator.WF ⟨-(2 ^ 126) - 5, -1⟩ ∧
      Aggregator.WF ⟨2 ^ 126 + 7, 0⟩) ∧
    (Aggregator.MergeWith ⟨2 ^ 126, 3⟩
        (Aggregator.MergeWith ⟨-(2 ^ 126) - 5, -1⟩ ⟨2 ^ 126 + 7, 0⟩) =
      Aggregator.MergeWith
        (Aggregator.MergeWith ⟨2 ^ 126, 3⟩ ⟨-(2 ^ 126) - 5, -1⟩) ⟨2 ^ 126 + 7, 0⟩) :=
  ⟨⟨by decide, by decide, by decide⟩,
    (aggregator_merge_associative ⟨2 ^ 126, 3⟩ ⟨-(2 ^ 126) - 5, -1⟩ ⟨2 ^ 126 + 7, 0⟩
      (by decide) (by decide) (by decide)).1⟩

/-- Variance aggregator state (`NumericValue::VarianceAggregator`): a signed
192-bit running sum and a signed 320-bit running sum of squares. -/
structure VarianceAggregator where
  sum : ℤ
  sum_square : ℤ
  deriving DecidableEq, Repr

/-- Well-formedness of a `VarianceAggregator` state: both accumulators hold
canonical two's-complement values of their widths. -/
def VarianceAggregator.WF (s : VarianceAggregator) : Prop :=
  -(2 ^ 191) ≤ s.sum ∧ s.sum < 2 ^ 191 ∧
  -(2 ^ 319) ≤ s.sum_square ∧ s.sum_square < 2 ^ 319

instance (s : VarianceAggregator) : Decidable s.WF := by
  unfold VarianceAggregator.WF; infer_instance

/-- `NumericValue::VarianceAggregator::Add` from numeric_value.cc: add the
packed value into the 192-bit sum and its exact 256-bit square (computed by
`ExtendAndMultiply` and sign-extended) into the 320-bit sum of squares. -/
def VarianceAggregator.Add (s : VarianceAggregator) (v : ℤ) : VarianceAggregator :=
  { sum := wrapSigned (2 ^ 191) (s.sum + v),
    sum_square := wrapSigned (2 ^ 319) (s.sum_square + v * v) }

/-- `NumericValue::VarianceAggregator::Subtract` from numeric_value.cc:
exactly `Add` with both additions replaced by subtractions. -/
def VarianceAggregator.Subtract (s : VarianceAggregator) (v : ℤ) : VarianceAggregator :=
  { sum := wrapSigned (2 ^ 191) (s.sum - v),
    sum_square := wrapSigned (2 ^ 319) (s.sum_square - v * v) }

/-- C10: VarianceAggregator's Subtract is the exact inverse of Add: for every
well-formed aggregator state `s` and NUMERIC value `v`, `Add(v)` followed by
`Subtract(v)` (and vice versa) leaves both accumulators bitwise equal to `s`,
so sliding-window aggregation is exact. -/
theorem variance_subtract_inverse_of_add (s : VarianceAggregator) (v : ℤ)
    (hs : s.WF) (hv : IsValidNumeric v) :
    (s.Add v).Subtract v = s ∧ (s.Subtract v).Add v = s := by
  obtain ⟨ssum, ssq⟩ := s
  obtain ⟨h1, h2, h3, h4⟩ := hs
  simp only at h1 h2 h3 h4
  unfold VarianceAggregator.Add VarianceAggregator.Subtract
  simp only
  constructor
  · simp only [VarianceAggregator.mk.injEq]
    constructor
    · rw [wrapSigned_absorb_sub]
      have : ssum + v - v = ssum := by ring
      rw [this]
      exact wrapSigned_eq_self (by norm_num) h1 h2
    · rw [wrapSigned_absorb_sub]
      have : ssq + v * v - v * v = ssq := by ring
      rw [this]
      exact wrapSigned_eq_self (by norm_num) h3 h4
  · simp only [VarianceAggregator.mk.injEq]
    constructor
    · rw [wrapSigned_absorb_left]
      have : ssum - v + v = ssum := by ring
      rw [this]
      exact wrapSigned_eq_self (by norm_num) h1 h2
    · rw [wrapSigned_absorb_left]
      have : ssq - v * v + v * v = ssq := by ring
      rw [this]
      exact wrapSigned_eq_self (by norm_num) h3 h4

set_option maxRecDepth 20000 in
/-- Witness for `variance_subtract_inverse_of_add`, applying it at the state
`(5, 7)` and the NUMERIC value `3·10^9`. -/
theorem variance_subtract_inverse_of_add_witness :
    (VarianceAggregator.WF ⟨5, 7⟩ ∧ IsValidNumeric (3000000000 : ℤ)) ∧
    ((VarianceAggregator.Add ⟨5, 7⟩ 3000000000).Subtract 3000000000 = ⟨5, 7⟩ ∧
     (VarianceAggregator.Subtract ⟨5, 7⟩ 3000000000).Add 3000000000 = ⟨5, 7⟩) :=
  ⟨⟨by decide, by decide⟩,
    variance_subtract_inverse_of_add ⟨5, 7⟩ 3000000000 (by decide) (by decide)⟩

/-- Little-endian interpretation of a byte list (left inverse of
`toBytesLE`). -/
def ofBytesLE (bytes : List ℕ) : ℕ := bytes.foldr (fun b acc => b + 256 * acc) 0

theorem toBytesLE_succ (len n : ℕ) :
    toBytesLE (len + 1) n = n % 256 :: toBytesLE len (n / 256) := by
  unfold toBytesLE
  rw [List.range_succ_eq_map, List.map_cons]
  congr 1
  · norm_num
  · rw [List.map_map]
    apply List.map_congr_left
    intro i _
    simp only [Function.comp_apply]
    rw [Nat.div_div_eq_div_mul]
    have he : (2 : ℕ) ^ (8 * Nat.succ i) = 256 * 2 ^ (8 * i) := by
      rw [show 8 * Nat.succ i = 8 + 8 * i by omega, pow_add]
      norm_num
    rw [he]

theorem ofBytesLE_toBytesLE (len : ℕ) :
    ∀ n, ofBytesLE (toBytesLE len n) = n % 2 ^ (8 * len) := by
  induction len with
  | zero => intro n; simp [toBytesLE, ofBytesLE, Nat.mod_one]
  | succ k ih =>
    intro n
    rw [toBytesLE_succ]
    show n % 256 + 256 * ofBytesLE (toBytesLE k (n / 256)) = n % 2 ^ (8 * (k + 1))
    rw [ih, show 8 * (k + 1) = 8 + 8 * k by ring, pow_add,
      show (2 : ℕ) ^ 8 = 256 by norm_num]
    exact Nat.mod_mul.symm

theorem toBytesLE_length (len n : ℕ) : (toBytesLE len n).length = len := by
  unfold toBytesLE
  rw [List.length_map, List.length_range]

theorem toBytesLE_getLastD (len : ℕ) :
    ∀ n d, len ≠ 0 → (toBytesLE len n).getLastD d = n / 2 ^ (8 * (len - 1)) % 256 := by
  induction len with
  | zero => intro n d h; exact absurd rfl h
  | succ k ih =>
    intro n d _
    rw [toBytesLE_succ, List.getLastD_cons]
    rcases Nat.eq_zero_or_pos k with h0 | hpos
    · subst h0
      simp [toBytesLE]
    · rw [ih _ _ (Nat.pos_iff_ne_zero.mp hpos), Nat.div_div_eq_div_mul]
      congr 2
      rw [show 8 * (k + 1 - 1) = 8 + 8 * (k - 1) by omega, pow_add]
      norm_num

/-- `NumericValue::SerializeAsProtoBytes` from numeric_value.cc: zero is the
single byte `0x00`; otherwise find the most significant nonzero byte of the
absolute value (`FindMSBSetNonZero64`, modelled as `Nat.log2`), add one more
byte when that byte's high bit is set, and copy that many little-endian bytes
of the two's-complement packed value. -/
def SerializeAsProtoBytes (v : ℤ) : List ℕ :=
  if v = 0 then [0]
  else
    let abs_value : ℕ := v.natAbs
    let non_zero_bit_idx : ℕ := Nat.log2 abs_value
    let non_zero_byte_idx0 : ℕ := non_zero_bit_idx / 8
    let non_zero_byte : ℕ := abs_value / 2 ^ (non_zero_byte_idx0 * 8) % 256
    let non_zero_byte_idx : ℕ :=
      if 128 ≤ non_zero_byte then non_zero_byte_idx0 + 1 else non_zero_byte_idx0
    toBytesLE (non_zero_byte_idx + 1) ((v % 2 ^ 128).toNat)

/-- Byte-string decoding of a `FixedInt<64,2>`. Modelled from the spec:
`FixedInt::DeserializeFromBytes` lives in fixed_int.h, outside the visible
source; per the spec it is the inverse of the minimum-length little-endian
two's-complement encoding and "fails if bytes do not fit the target width
after sign extension" — the empty string is invalid, more than 16 bytes do
not fit a 128-bit target, and the most significant byte's high bit gives the
sign. -/
def DeserializeFixedInt2 (bytes : List ℕ) : Option ℤ :=
  if bytes.length = 0 ∨ 16 < bytes.length then none
  else
    let n : ℕ := ofBytesLE bytes
    let w : ℤ :=
      if 128 ≤ bytes.getLastD 0 then (n : ℤ) - 2 ^ (8 * bytes.length) else (n : ℤ)
    if -(2 ^ 127) ≤ w ∧ w < 2 ^ 127 then some w else none

/-- `NumericValue::DeserializeFromProtoBytes` from numeric_value.cc: decode a
`FixedInt<64,2>` from the bytes and range-check via `FromPackedInt`; any
failure is the "Invalid numeric encoding" error (modelled as `none`). -/
def DeserializeFromProtoBytes (bytes : List ℕ) : Option ℤ :=
  match DeserializeFixedInt2 bytes with
  | some w => FromPackedInt w
  | none => none

/-- Deserialization is a left inverse of `toBytesLE` on any byte count `m`
with `1 ≤ m ≤ 16` whose signed capacity strictly covers the value. -/
theorem deserializeFixedInt2_toBytesLE (v : ℤ) (m : ℕ) (hm1 : 1 ≤ m) (hm16 : m ≤ 16)
    (habs : v.natAbs < 2 ^ (8 * m - 1)) :
    DeserializeFixedInt2 (toBytesLE m ((v % 2 ^ 128).toNat)) = some v := by
  have hlen : (toBytesLE m ((v % 2 ^ 128).toNat)).length = m := toBytesLE_length _ _
  have hcap : (2 : ℕ) ^ (8 * m - 1) * 2 = 2 ^ (8 * m) := by
    rw [← pow_succ]
    congr 1
    omega
  have hcap127 : (2 : ℕ) ^ (8 * m - 1) ≤ 2 ^ 127 :=
    Nat.pow_le_pow_right (by norm_num) (by omega)
  have hcap128 : (2 : ℕ) ^ (8 * m) ≤ 2 ^ 128 :=
    Nat.pow_le_pow_right (by norm_num) (by omega)
  have hsplit : (2 : ℕ) ^ (8 * m) = 2 ^ 8 * 2 ^ (8 * (m - 1)) := by
    rw [← pow_add]
    congr 1
    omega
  have hsplit1 : (2 : ℕ) ^ (8 * m - 1) = 2 ^ 7 * 2 ^ (8 * (m - 1)) := by
    rw [← pow_add]
    congr 1
    omega
  unfold DeserializeFixedInt2
  simp only [hlen, ofBytesLE_toBytesLE, toBytesLE_getLastD _ _ _ (show m ≠ 0 by omega)]
  rw [if_neg (by omega)]
  rcases le_or_lt 0 v with hpos | hneg
  · -- nonnegative packed value
    have hva : v.natAbs = v.toNat := by omega
    have htc : (v % 2 ^ 128).toNat = v.toNat := by
      have hlt : v < 2 ^ 128 := by
        have h1 : (v.natAbs : ℤ) < ((2 ^ (8 * m - 1) : ℕ) : ℤ) := by exact_mod_cast habs
        have h2 : ((2 ^ (8 * m - 1) : ℕ) : ℤ) ≤ ((2 ^ 128 : ℕ) : ℤ) := by
          exact_mod_cast le_trans hcap127 (by norm_num : (2 : ℕ) ^ 127 ≤ 2 ^ 128)
        have h3 : ((2 ^ 128 : ℕ) : ℤ) = 2 ^ 128 := by norm_cast
        omega
      rw [Int.emod_eq_of_lt hpos hlt]
    rw [htc]
    have ha1 : v.toNat < 2 ^ (8 * m - 1) := by omega
    have ha2 : v.toNat < 2 ^ (8 * m) := by omega
    have hmod : v.toNat % 2 ^ (8 * m) = v.toNat := Nat.mod_eq_of_lt ha2
    have hdivlt : v.toNat / 2 ^ (8 * (m - 1)) < 128 := by
      rw [Nat.div_lt_iff_lt_mul (pow_pos (by norm_num : (0 : ℕ) < 2) _)]
      calc v.toNat < 2 ^ (8 * m - 1) := ha1
        _ = 128 * 2 ^ (8 * (m - 1)) := by rw [hsplit1]; norm_num
    have hlast : v.toNat / 2 ^ (8 * (m - 1)) % 256 = v.toNat / 2 ^ (8 * (m - 1)) :=
      Nat.mod_eq_of_lt (lt_trans hdivlt (by norm_num))
    rw [hmod, hlast, if_neg (not_le.mpr hdivlt)]
    have hr : ((v.toNat : ℕ) : ℤ) = v := Int.toNat_of_nonneg hpos
    have hrange : -(2 ^ 127 : ℤ) ≤ ((v.toNat : ℕ) : ℤ) ∧ ((v.toNat : ℕ) : ℤ) < 2 ^ 127 := by
      have h1 : ((v.toNat : ℕ) : ℤ) < ((2 ^ 127 : ℕ) : ℤ) := by
        exact_mod_cast lt_of_lt_of_le ha1 hcap127
      have h2 : ((2 ^ 127 : ℕ) : ℤ) = 2 ^ 127 := by norm_cast
      have h3 : (0 : ℤ) ≤ ((v.toNat : ℕ) : ℤ) := Int.natCast_nonneg _
      omega
    rw [if_pos hrange, hr]
  · -- negative packed value
    have habs1 : 1 ≤ v.natAbs := by omega
    have habsle : v.natAbs ≤ 2 ^ (8 * m) := le_trans (le_of_lt habs) (by omega)
    have h128pos : (0 : ℤ) < 2 ^ 128 := by positivity
    have hvlow : -(2 ^ 128 : ℤ) < v := by
      have : (v.natAbs : ℤ) < ((2 ^ 128 : ℕ) : ℤ) := by
        exact_mod_cast lt_of_lt_of_le habs (le_trans hcap127 (by norm_num))
      omega
    have hemod : v % (2 ^ 128 : ℤ) = v + 2 ^ 128 := by
      have h1 : (v + 2 ^ 128) % (2 ^ 128 : ℤ) = v % 2 ^ 128 := by
        simpa using Int.add_mul_emod_self_left (a := v) (b := (2 ^ 128 : ℤ)) (c := 1)
      rw [← h1, Int.emod_eq_of_lt (by omega) (by omega)]
    have htc : (v % 2 ^ 128).toNat = 2 ^ 128 - v.natAbs := by
      rw [hemod]
      omega
    rw [htc]
    -- the wrapped value modulo 2^(8m)
    have hdvd : (2 : ℕ) ^ (8 * m) ∣ 2 ^ 128 - 2 ^ (8 * m) :=
      Nat.dvd_sub' (Nat.pow_dvd_pow 2 (by omega)) dvd_rfl
    obtain ⟨q, hq⟩ := hdvd
    have hsp : 2 ^ 128 - v.natAbs = 2 ^ (8 * m) * q + (2 ^ (8 * m) - v.natAbs) := by
      have h1 : (2 : ℕ) ^ (8 * m) ≤ 2 ^ 128 := hcap128
      omega
    have hn : (2 ^ 128 - v.natAbs) % 2 ^ (8 * m) = 2 ^ (8 * m) - v.natAbs := by
      rw [hsp, Nat.mul_add_mod]
      exact Nat.mod_eq_of_lt (by omega)
    rw [hn]
    have hnlow : 2 ^ (8 * m - 1) < 2 ^ (8 * m) - v.natAbs := by omega
    have hnhigh : 2 ^ (8 * m) - v.natAbs < 2 ^ (8 * m) := by omega
    have hdivge : 128 ≤ (2 ^ (8 * m) - v.natAbs) / 2 ^ (8 * (m - 1)) := by
      have h1 : 2 ^ (8 * m - 1) / 2 ^ (8 * (m - 1)) = 128 := by
        rw [hsplit1]
        rw [Nat.mul_div_cancel _ (pow_pos (by norm_num : (0 : ℕ) < 2) _)]
        norm_num
      calc (128 : ℕ) = 2 ^ (8 * m - 1) / 2 ^ (8 * (m - 1)) := h1.symm
        _ ≤ (2 ^ (8 * m) - v.natAbs) / 2 ^ (8 * (m - 1)) :=
            Nat.div_le_div_right (le_of_lt hnlow)
    have hdivlt : (2 ^ (8 * m) - v.natAbs) / 2 ^ (8 * (m - 1)) < 256 := by
      rw [Nat.div_lt_iff_lt_mul (pow_pos (by norm_num : (0 : ℕ) < 2) _)]
      calc 2 ^ (8 * m) - v.natAbs < 2 ^ (8 * m) := hnhigh
        _ = 256 * 2 ^ (8 * (m - 1)) := by rw [hsplit]; norm_num
    have hlast : (2 ^ (8 * m) - v.natAbs) / 2 ^ (8 * (m - 1)) % 256 =
        (2 ^ (8 * m) - v.natAbs) / 2 ^ (8 * (m - 1)) := Nat.mod_eq_of_lt hdivlt
    have hlswap : (2 ^ 128 - v.natAbs) / 2 ^ (8 * (m - 1)) % 256 =
        (2 ^ (8 * m) - v.natAbs) / 2 ^ (8 * (m - 1)) % 256 := by
      conv_lhs => rw [hsp]
      rw [show 2 ^ (8 * m) * q = 2 ^ (8 * (m - 1)) * (2 ^ 8 * q) by rw [hsplit]; ring]
      rw [Nat.mul_add_div (pow_pos (by norm_num : (0 : ℕ) < 2) _)]
      rw [Nat.add_comm, show (2 : ℕ) ^ 8 * q = 256 * q by norm_num]
      exact Nat.add_mul_mod_self_left _ 256 q
    rw [hlswap, hlast, if_pos hdivge]
    have hcast : ((2 ^ (8 * m) - v.natAbs : ℕ) : ℤ) = (2 ^ (8 * m) : ℤ) - v.natAbs := by
      push_cast [Nat.cast_sub habsle]
      norm_num
    have hw : ((2 ^ (8 * m) - v.natAbs : ℕ) : ℤ) - 2 ^ (8 * m) = v := by
      rw [hcast]
      have : ((v.natAbs : ℤ)) = -v := by omega
      rw [this]
      push_cast
      ring
    have hrange : -(2 ^ 127 : ℤ) ≤ v ∧ v < 2 ^ 127 := by
      have h1 : (v.natAbs : ℤ) ≤ ((2 ^ 127 : ℕ) : ℤ) := by
        exact_mod_cast le_trans (le_of_lt habs) hcap127
      have h2 : ((2 ^ 127 : ℕ) : ℤ) = 2 ^ 127 := by norm_cast
      omega
    rw [hw, if_pos hrange]

/-- Serialize-then-deserialize round-trips on every valid NUMERIC value. -/
theorem deserialize_serialize (v : ℤ) (hv : IsValidNumeric v) :
    DeserializeFromProtoBytes (SerializeAsProtoBytes v) = some v := by
  have hFv : v.natAbs < 2 ^ 127 :=
    lt_of_le_of_lt hv (by norm_num [kNumericMax])
  by_cases h0 : v = 0
  · subst h0
    have h1 : SerializeAsProtoBytes 0 = [0] := by simp [SerializeAsProtoBytes]
    rw [h1]
    have h2 : DeserializeFixedInt2 [0] = some 0 := by
      simp [DeserializeFixedInt2, ofBytesLE]
    unfold DeserializeFromProtoBytes
    rw [h2]
    simp [FromPackedInt]
  · have habs0 : v.natAbs ≠ 0 := fun h => h0 (Int.natAbs_eq_zero.mp h)
    unfold SerializeAsProtoBytes
    rw [if_neg h0]
    simp only []
    set bit := Nat.log2 v.natAbs with hbit
    set B0 := bit / 8 with hB0
    have hF1 : 2 ^ bit ≤ v.natAbs := Nat.log2_self_le habs0
    have hF2 : v.natAbs < 2 ^ (bit + 1) := (Nat.log2_lt habs0).mp (Nat.lt_succ_self _)
    have hbit127 : bit ≤ 126 := by
      by_contra hcon
      push_neg at hcon
      have : (2 : ℕ) ^ 127 ≤ 2 ^ bit := Nat.pow_le_pow_right (by norm_num) hcon
      omega
    have hB015 : B0 ≤ 15 := by omega
    have hFhigh : v.natAbs < 2 ^ (B0 * 8 + 8) := by
      refine lt_of_lt_of_le hF2 (Nat.pow_le_pow_right (by norm_num) ?_)
      omega
    have hDpos : (0 : ℕ) < 2 ^ (B0 * 8) := pow_pos (by norm_num) _
    have hnzb_eq : v.natAbs / 2 ^ (B0 * 8) % 256 = v.natAbs / 2 ^ (B0 * 8) := by
      apply Nat.mod_eq_of_lt
      rw [Nat.div_lt_iff_lt_mul hDpos]
      calc v.natAbs < 2 ^ (B0 * 8 + 8) := hFhigh
        _ = 256 * 2 ^ (B0 * 8) := by rw [pow_add]; ring
    have hfin : ∀ m : ℕ, 1 ≤ m → m ≤ 16 → v.natAbs < 2 ^ (8 * m - 1) →
        DeserializeFromProtoBytes (toBytesLE m ((v % 2 ^ 128).toNat)) = some v := by
      intro m hm1 hm16 hlt
      have hd := deserializeFixedInt2_toBytesLE v m hm1 hm16 hlt
      unfold DeserializeFromProtoBytes
      rw [hd]
      show FromPackedInt v = some v
      unfold FromPackedInt
      exact if_pos hv
    by_cases hbig : 128 ≤ v.natAbs / 2 ^ (B0 * 8) % 256
    · rw [if_pos hbig]
      rw [hnzb_eq] at hbig
      have h128le : 128 * 2 ^ (B0 * 8) ≤ v.natAbs := by
        rw [Nat.le_div_iff_mul_le hDpos] at hbig
        linarith
      have hB0small : B0 ≤ 14 := by
        by_contra hcon
        push_neg at hcon
        have hB0eq : B0 = 15 := by omega
        rw [hB0eq] at h128le
        have : (2 : ℕ) ^ 127 ≤ v.natAbs := by
          calc (2 : ℕ) ^ 127 = 128 * 2 ^ (15 * 8) := by norm_num
            _ ≤ v.natAbs := h128le
        omega
      exact hfin (B0 + 1 + 1) (by omega) (by omega)
        (lt_of_lt_of_le hFhigh (Nat.pow_le_pow_right (by norm_num) (by omega)))
    · rw [if_neg hbig]
      push_neg at hbig
      rw [hnzb_eq] at hbig
      have hsmall : v.natAbs < 128 * 2 ^ (B0 * 8) := by
        rw [Nat.div_lt_iff_lt_mul hDpos] at hbig
        linarith
      refine hfin (B0 + 1) (by omega) (by omega) ?_
      calc v.natAbs < 128 * 2 ^ (B0 * 8) := hsmall
        _ = 2 ^ (8 * (B0 + 1) - 1) := by
            rw [show 8 * (B0 + 1) - 1 = 7 + B0 * 8 by omega, pow_add]
            norm_num

/-- C4 (amended): NUMERIC serialization emits the minimum-length little-endian
two's-complement encoding of the scaled integer: zero serializes to the single
byte `0x00`; the scaled integer 1 serializes to the SINGLE byte `0x01`; a
scaled integer whose top magnitude byte has its high bit set gains one extra
zero byte to keep the high bit cleared (e.g. 128 serializes to `0x80 0x00`);
serialize-then-deserialize round-trips; and deserializing the empty byte
string fails with an invalid-encoding error. -/
theorem serialize_minimal_twos_complement (v : ℤ) (hv : IsValidNumeric v) :
    SerializeAsProtoBytes 0 = [0] ∧
    SerializeAsProtoBytes 1 = [1] ∧
    SerializeAsProtoBytes 128 = [128, 0] ∧
    DeserializeFromProtoBytes (SerializeAsProtoBytes v) = some v ∧
    DeserializeFromProtoBytes [] = none := by
  refine ⟨by simp [SerializeAsProtoBytes], ?_, ?_, deserialize_serialize v hv, ?_⟩
  · simp [SerializeAsProtoBytes, Nat.log2, toBytesLE, List.range_succ]
  · simp [SerializeAsProtoBytes, Nat.log2, toBytesLE, List.range_succ]
  · simp [DeserializeFromProtoBytes, DeserializeFixedInt2]

/-- Witness for `serialize_minimal_twos_complement`, applying it at the packed
value `-123`. -/
theorem serialize_minimal_twos_complement_witness :
    IsValidNumeric (-123 : ℤ) ∧
    DeserializeFromProtoBytes (SerializeAsProtoBytes (-123)) = some (-123) :=
  ⟨by decide, (serialize_minimal_twos_complement (-123) (by decide)).2.2.2.1⟩

/-- C4 counterexample: the claim "the scaled integer 1 serializes to the two
bytes 0x01 0x00" is false on the code — the scaled integer 1 serializes to
the single byte `0x01`. -/
theorem serialize_one_single_byte :
    SerializeAsProtoBytes 1 = [1] ∧ SerializeAsProtoBytes 1 ≠ [1, 0] := by
  constructor
  · simp [SerializeAsProtoBytes, Nat.log2, toBytesLE, List.range_succ]
  · simp [SerializeAsProtoBytes, Nat.log2, toBytesLE, List.range_succ]

/-- Error kinds surfaced by the embedded `PowerInternal`. -/
inductive NumErr where
  | divisionByZero
  | negFractionalPower
  | overflow
  | outOfRange
  deriving DecidableEq, Repr

/-- `kScalingFactorSquare` from numeric_value.cc. -/
def kScalingFactorSquare : ℕ := kScalingFactor * kScalingFactor

/-- `kScalingFactorCube` from numeric_value.cc. -/
def kScalingFactorCube : ℕ :=
  kScalingFactorSquare * kScalingFactor

/-- `RemoveDoubleScale` from numeric_value.cc: divide a `FixedUint<64, size>`
by `kScalingFactor^2` with rounding; fails when adding the half step
overflows the width or the top word of the sum is at least
`kScalingFactorSquare`; the quotient is truncated to `size - 1` words. -/
def RemoveDoubleScale (size : ℕ) (input : ℕ) : Option ℕ :=
  let sum : ℕ := input + kScalingFactorSquare / 2
  if sum < 2 ^ (64 * size) ∧ sum / 2 ^ (64 * (size - 1)) < kScalingFactorSquare then
    some (sum / kScalingFactor / kScalingFactor % 2 ^ (64 * (size - 1)))
  else none

/-- Loop body of `DoubleScaledPower` from numeric_value.cc (binary
exponentiation on double-scaled `FixedUint<64,3>` values): when the exponent
bit is set, multiply the accumulator by the current power (the 384-bit
product must fit in 256 bits) and remove one double scale; then either stop,
or square the current power (which must fit in 128 bits) and halve the
exponent. -/
def DoubleScaledPowerLoop (result power e : ℕ) : Option ℕ :=
  let step : Option ℕ :=
    if e % 2 = 1 then
      let tmp : ℕ := result * power
      if tmp < 2 ^ 256 then RemoveDoubleScale 4 tmp else none
    else some result
  match step with
  | none => none
  | some r =>
    if h : e ≤ 1 then some r
    else
      if power < 2 ^ 128 then
        match RemoveDoubleScale 4 (power * power) with
        | some p => DoubleScaledPowerLoop r p (e / 2)
        | none => none
      else none
termination_by e
decreasing_by simp_wf; omega

/-- `DoubleScaledPower` from numeric_value.cc. -/
def DoubleScaledPower (double_scaled_value : ℕ) (unscaled_exp : ℕ) : Option ℕ :=
  DoubleScaledPowerLoop kScalingFactorSquare double_scaled_value unscaled_exp

/-- Unsigned division rounding half away from zero. Modelled from the spec:
`FixedUint::DivAndRoundAwayFromZero` lives in fixed_int.h, outside the
visible source; per the spec it computes `q = (n + d/2) / d`. -/
def DivAndRoundAwayFromZero (n d : ℕ) : ℕ := (n + d / 2) / d

/-- `NumericValue::PowerInternal` from numeric_value.cc, parameterized by
`fracMul`, an oracle standing for `MultiplyByFractionalPower` (whose result
goes through `std::pow` on doubles and is therefore not embeddable exactly;
the theorems below hold for every oracle).  All other branches follow the
source: `x^0 = 1`; `0^e` is a division-by-zero error for `e < 0` and zero
otherwise; a negative base with nonzero fractional exponent is an error;
otherwise binary exponentiation on double-scaled values, with the
negative-exponent inversion paths. -/
def PowerInternal (fracMul : ℕ → ℤ → ℕ → Except NumErr ℕ) (x e : ℤ) :
    Except NumErr ℤ :=
  if e = 0 then Except.ok (numericFromInt 1)
  else
    if x = 0 then
      (if e < 0 then Except.error NumErr.divisionByZero else Except.ok 0)
    else
      let abs_integer_exp : ℕ := e.natAbs / kScalingFactor
      let abs_fract_exp : ℕ := e.natAbs % kScalingFactor
      let fract_exp : ℤ := if e < 0 then -(abs_fract_exp : ℤ) else (abs_fract_exp : ℤ)
      if x < 0 ∧ fract_exp ≠ 0 then Except.error NumErr.negFractionalPower
      else
        let result_is_negative : Bool := decide (x < 0) && decide (abs_integer_exp % 2 = 1)
        let abs_value : ℕ := x.natAbs
        let tail : ℕ → Except NumErr ℤ := fun dsv =>
          match DoubleScaledPower dsv abs_integer_exp with
          | none => Except.error NumErr.overflow
          | some dsv2 =>
            if fract_exp = 0 then
              match FromFixedUint (DivAndRoundAwayFromZero dsv2 kScalingFactor)
                  result_is_negative with
              | some r => Except.ok r
              | none => Except.error NumErr.overflow
            else
              match fracMul abs_value fract_exp dsv2 with
              | Except.error err => Except.error err
              | Except.ok dsv3 =>
                match RemoveDoubleScale 3 dsv3 with
                | none => Except.error NumErr.overflow
                | some ret =>
                  match FromFixedUint ret result_is_negative with
                  | some r => Except.ok r
                  | none => Except.error NumErr.overflow
        if ¬ (e < 0) then tail (abs_value * kScalingFactor)
        else if kScalingFactor < abs_value then
          match DoubleScaledPower (abs_value * kScalingFactor) abs_integer_exp with
          | none => Except.ok 0
          | some dsv2 =>
            if 2 * kScalingFactorCube < dsv2 then Except.ok 0
            else if fract_exp = 0 then
              match FromFixedUint (DivAndRoundAwayFromZero kScalingFactorCube dsv2)
                  result_is_negative with
              | some r => Except.ok r
              | none => Except.error NumErr.overflow
            else
              match fracMul abs_value fract_exp kScalingFactorSquare with
              | Except.error err => Except.error err
              | Except.ok numerator =>
                match FromFixedUint (DivAndRoundAwayFromZero numerator dsv2)
                    result_is_negative with
                | some r => Except.ok r
                | none => Except.error NumErr.overflow
        else tail (DivAndRoundAwayFromZero kScalingFactorCube abs_value)

/-- C3: For every NUMERIC exponent `e` and base `x` (and every fractional
oracle), Power obeys: `x^0 = 1` for every `x` including `x = 0`; `0^e` is a
division-by-zero error when `e < 0` and `0` when `e > 0`; and a negative
base raised to an exponent with nonzero fractional part (i.e. whose packed
value is not a multiple of the scale) is the "Negative NUMERIC value cannot
be raised to a fractional power" error. -/
theorem power_special_cases
    (f : ℕ → ℤ → ℕ → Except NumErr ℕ) (x e : ℤ)
    (hx : IsValidNumeric x) (he : IsValidNumeric e) :
    (PowerInternal f x 0 = Except.ok (numericFromInt 1)) ∧
    (e < 0 → PowerInternal f 0 e = Except.error NumErr.divisionByZero) ∧
    (0 < e → PowerInternal f 0 e = Except.ok 0) ∧
    (x < 0 → ¬ ((kScalingFactor : ℤ) ∣ e) →
      PowerInternal f x e = Except.error NumErr.negFractionalPower) := by
  refine ⟨by simp [PowerInternal], ?_, ?_, ?_⟩
  · intro hneg
    unfold PowerInternal
    rw [if_neg (by omega : ¬ (e = 0)), if_pos rfl, if_pos hneg]
  · intro hpos
    unfold PowerInternal
    rw [if_neg (by omega : ¬ (e = 0)), if_pos rfl, if_neg (by omega : ¬ (e < 0))]
  · intro hxneg hndvd
    have he0 : e ≠ 0 := by
      intro h
      exact hndvd (h ▸ dvd_zero _)
    have hmod : e.natAbs % kScalingFactor ≠ 0 := by
      intro h
      apply hndvd
      have h1 : kScalingFactor ∣ e.natAbs := Nat.dvd_of_mod_eq_zero h
      exact (Int.natCast_dvd_natCast.mpr h1).trans (Int.natAbs_dvd.mpr dvd_rfl)
    have hfne : (if e < 0 then -((e.natAbs % kScalingFactor : ℕ) : ℤ)
        else ((e.natAbs % kScalingFactor : ℕ) : ℤ)) ≠ 0 := by
      by_cases hel : e < 0
      · rw [if_pos hel]
        simpa using hndvd
      · rw [if_neg hel]
        simpa using hndvd
    unfold PowerInternal
    rw [if_neg he0, if_neg (by omega : ¬ (x = 0))]
    simp only []
    rw [if_pos ⟨hxneg, hfne⟩]

/-- Witness for `power_special_cases`, applying it at a concrete oracle,
`x = -2·10^9` (the NUMERIC value −2) and `e = 25·10^8` (2.5). -/
theorem power_special_cases_witness :
    (IsValidNumeric (-2000000000 : ℤ) ∧ IsValidNumeric (2500000000 : ℤ)) ∧
    ((PowerInternal (fun _ _ _ => Except.error NumErr.overflow) (-2000000000) 0 =
        Except.ok (numericFromInt 1)) ∧
     ((2500000000 : ℤ) < 0 →
        PowerInternal (fun _ _ _ => Except.error NumErr.overflow) 0 2500000000 =
          Except.error NumErr.divisionByZero) ∧
     ((0 : ℤ) < 2500000000 →
        PowerInternal (fun _ _ _ => Except.error NumErr.overflow) 0 2500000000 =
          Except.ok 0) ∧
     ((-2000000000 : ℤ) < 0 → ¬ ((kScalingFactor : ℤ) ∣ 2500000000) →
        PowerInternal (fun _ _ _ => Except.error NumErr.overflow) (-2000000000) 2500000000 =
          Except.error NumErr.negFractionalPower)) :=
  ⟨⟨by decide, by decide⟩,
    power_special_cases (fun _ _ _ => Except.error NumErr.overflow)
      (-2000000000) 2500000000 (by decide) (by decide)⟩

/-- ASCII whitespace per `absl::ascii_isspace`: space, tab, newline, vertical
tab, form feed, carriage return. -/
def isSpaceChar (c : ℕ) : Bool := decide (c = 32 ∨ (9 ≤ c ∧ c ≤ 13))

/-- ASCII decimal digit per `absl::ascii_isdigit`. -/
def isDigitChar (c : ℕ) : Bool := decide (48 ≤ c ∧ c ≤ 57)

/-- Decimal digits of `n`, most significant first (always nonempty; `[0]` for
zero). -/
def natDigits (n : ℕ) : List ℕ :=
  if n < 10 then [n] else natDigits (n / 10) ++ [n % 10]
termination_by n
decreasing_by simp_wf; omega

/-- ASCII form of the decimal digits of `n`. -/
def canonicalDigits (n : ℕ) : List ℕ := (natDigits n).map (fun d => 48 + d)

/-- Value of a most-significant-first digit list. -/
def digitsVal (l : List ℕ) : ℕ := l.foldl (fun a d => 10 * a + d) 0

/-- Value accumulated by the digit parsers over an ASCII digit string. -/
def charsVal (s : List ℕ) : ℕ := s.foldl (fun a c => 10 * a + (c - 48)) 0

/-- Number of trailing `'0'` (ASCII 48) characters, as computed by
`find_last_not_of` in `AddDecimalPointAndAdjustZeros` (for an all-zero string
the C++ size_t arithmetic also yields the full length). -/
def trailingZeros (l : List ℕ) : ℕ :=
  (l.reverse.takeWhile (fun c => decide (c = 48))).length

/-- Signed decimal rendering of a `FixedInt`. Modelled from the spec:
`FixedInt::AppendToString` lives in fixed_int.h, outside the visible source;
per the spec it appends the shortest decimal form with a leading `-` for
negative values. -/
def fixedIntAppendToString (v : ℤ) : List ℕ :=
  (if v < 0 then [45] else []) ++ canonicalDigits v.natAbs

/-- `AddDecimalPointAndAdjustZeros` from numeric_value.cc, on ASCII lists:
truncate up to `scale` trailing zeros of the digit region, then either prepend
`"0."` plus padding zeros (values below one), insert the decimal point
`scale` digits from the right, or leave a whole number. -/
def AddDecimalPointAndAdjustZeros (first_digit_index scale : ℕ)
    (output : List ℕ) : List ℕ :=
  let string_length : ℕ := output.length
  let fixed_uint_str : List ℕ := output.drop first_digit_index
  let fixed_uint_length : ℕ := fixed_uint_str.length
  let zeros_to_truncate : ℕ := min (trailingZeros fixed_uint_str) scale
  let trimmed : List ℕ := output.take (string_length - zeros_to_truncate)
  if fixed_uint_length < scale + 1 then
    trimmed.take first_digit_index ++
      (48 :: 46 :: List.replicate (scale - fixed_uint_length) 48) ++
      trimmed.drop first_digit_index
  else if zeros_to_truncate < scale then
    trimmed.take (string_length - scale) ++ 46 :: trimmed.drop (string_length - scale)
  else trimmed

/-- `NumericValue::AppendToString`/`ToString` from numeric_value.cc: `"0"` for
zero, else the `FixedInt` decimal form postprocessed by
`AddDecimalPointAndAdjustZeros` with the first digit after the optional
sign. -/
def ToString (v : ℤ) : List ℕ :=
  if v = 0 then [48]
  else
    AddDecimalPointAndAdjustZeros (if v < 0 then 1 else 0) kMaxFractionalDigits
      (fixedIntAppendToString v)

/-- The four fields produced by `SplitENotationParts`. -/
structure ENotationParts where
  negative : Bool
  int_part : List ℕ
  fract_part : List ℕ
  exp_part : List ℕ
  deriving DecidableEq, Repr

/-- `SplitENotationParts` from numeric_value.cc: trim ASCII whitespace from
both ends, reject the empty remainder, record and strip one leading sign,
split at the last `e`/`E` (rejecting an empty exponent part), and split the
significand at the first `.`. -/
def SplitENotationParts (str : List ℕ) : Option ENotationParts :=
  let s1 : List ℕ := str.dropWhile isSpaceChar
  let s2 : List ℕ := (s1.reverse.dropWhile isSpaceChar).reverse
  if s2 = [] then none
  else
    let negative : Bool := decide (s2.headD 0 = 45)
    let s3 : List ℕ :=
      if decide (s2.headD 0 = 45) || decide (s2.headD 0 = 43) then s2.tail else s2
    match s3.reverse.span (fun c => decide (c ≠ 101 ∧ c ≠ 69)) with
    | (_, []) =>
      match s3.span (fun c => decide (c ≠ 46)) with
      | (ip, rest) => some ⟨negative, ip, rest.tail, []⟩
    | (revExp, _ :: revRest) =>
      if revExp = [] then none
      else
        match revRest.reverse.span (fun c => decide (c ≠ 46)) with
        | (ip, rest) => some ⟨negative, ip, rest.tail, revExp.reverse⟩

/-- Unsigned strict digit-string parse bounded by 128 bits. Modelled from the
spec: `FixedUint::ParseFromStringStrict` lives in fixed_int.h, outside the
visible source; per the spec it accepts only (at least one) decimal digits
and reports overflow as an error.  The real code checks overflow
incrementally; since the accumulated value only grows, checking the final
value is equivalent. -/
def ParseFromStringStrictU (s : List ℕ) : Option ℕ :=
  if s ≠ [] ∧ s.all isDigitChar then
    (if charsVal s < 2 ^ 128 then some (charsVal s) else none)
  else none

/-- Segment variant used with a nonempty integer part. Modelled from the
spec: `FixedUint::ParseFromStringSegments` parses the concatenation of digit
segments without materializing the joined string. -/
def ParseFromStringSegmentsU (s1 s2 : List ℕ) : Option ℕ :=
  if s1 ≠ [] ∧ (s1 ++ s2).all isDigitChar then
    (if charsVal (s1 ++ s2) < 2 ^ 128 then some (charsVal (s1 ++ s2)) else none)
  else none

/-- Signed 64-bit strict parse. Modelled from the spec:
`FixedInt<64,1>::ParseFromStringStrict` layers one optional sign over the
unsigned digit parse and fails outside the signed 64-bit range. -/
def ParseFromStringStrictI64 (s : List ℕ) : Option ℤ :=
  match s with
  | [] => none
  | c :: rest =>
    let negate : Bool := decide (c = 45)
    let digs : List ℕ := if decide (c = 45) || decide (c = 43) then rest else s
    if digs ≠ [] ∧ digs.all isDigitChar then
      let w : ℤ := if negate then -(charsVal digs : ℤ) else (charsVal digs : ℤ)
      (if -(2 ^ 63) ≤ w ∧ w < 2 ^ 63 then some w else none)
    else none

/-- `ParseExponent` from numeric_value.cc: an empty exponent part yields
`extra_scale`; otherwise parse it as a signed 64-bit integer and add
`extra_scale` (64-bit overflow fails the parse); if that parse fails but the
part is syntactically `-` followed by digits, saturate to the minimum 64-bit
signed integer. -/
def ParseExponent (exp_part : List ℕ) (extra_scale : ℕ) : Option ℤ :=
  if exp_part = [] then some (extra_scale : ℤ)
  else
    match ParseFromStringStrictI64 exp_part with
    | some w =>
      (if w + extra_scale < 2 ^ 63 then some (w + extra_scale) else none)
    | none =>
      if 1 < exp_part.length ∧ exp_part.headD 0 = 45 ∧ exp_part.tail.all isDigitChar then
        some (-(2 ^ 63))
      else none

/-- Scaling loop at the end of the `exp ≥ 0` branch of `ParseNumber`:
repeatedly multiply by `10^19` (`internal::k1e19`) while at least 19 powers
remain, then by the table entry `kPowers[extra_exp]`; every multiplication
checks 128-bit overflow (`MultiplyOverflow`, modelled from the spec). -/
def scaleByPow10 (out : ℕ) (e : ℕ) : Option ℕ :=
  if h : 19 ≤ e then
    (if out * 10 ^ 19 < 2 ^ 128 then scaleByPow10 (out * 10 ^ 19) (e - 19) else none)
  else if e = 0 then some out
  else (if out * 10 ^ e < 2 ^ 128 then some (out * 10 ^ e) else none)
termination_by e
decreasing_by simp_wf; omega

/-- `ParseNumber` from numeric_value.cc: build the unsigned scaled magnitude
of `int_part.fract_part · 10^exp`.  For `exp ≥ 0`, promote up to `exp`
fractional digits into the integer part (recording a round-up flag from the
first demoted digit), parse, and scale up by the remaining power of ten; for
`exp < 0`, keep only the first `len(int_part) + exp` integer digits.  The
digits never visited must be zeros in strict mode and digits otherwise, and
the round-up adds one with a 128-bit overflow check. -/
def ParseNumber (int_part fract_part : List ℕ) (exp : ℤ) (strict : Bool) :
    Option ℕ :=
  if 0 ≤ exp then
    let num_promoted : ℕ :=
      if exp < (fract_part.length : ℤ) then exp.toNat else fract_part.length
    let round_up : Bool :=
      if exp < (fract_part.length : ℤ) then 53 ≤ fract_part.getD exp.toNat 0 else false
    let promoted : List ℕ := fract_part.take num_promoted
    let fractRest : List ℕ := fract_part.drop num_promoted
    let parsed : Option ℕ :=
      if int_part = [] then ParseFromStringStrictU promoted
      else ParseFromStringSegmentsU int_part promoted
    match parsed with
    | none => none
    | some out0 =>
      match scaleByPow10 out0 (exp.toNat - num_promoted) with
      | none => none
      | some out1 =>
        if (if strict then fractRest.all (fun c => decide (c = 48))
            else fractRest.all isDigitChar) then
          (if round_up then (if out1 + 1 < 2 ^ 128 then some (out1 + 1) else none)
           else some out1)
        else none
  else
    if int_part.length + fract_part.length = 0 then none
    else if -(int_part.length : ℤ) ≤ exp then
      let int_digits : ℕ := ((int_part.length : ℤ) + exp).toNat
      let round_up : Bool := 53 ≤ int_part.getD int_digits 0
      let parsed : Option ℕ :=
        if int_digits ≠ 0 then ParseFromStringStrictU (int_part.take int_digits)
        else some 0
      match parsed with
      | none => none
      | some out0 =>
        let intRest : List ℕ := int_part.drop int_digits
        if (if strict then
              intRest.all (fun c => decide (c = 48)) ∧ fract_part.all (fun c => decide (c = 48))
            else intRest.all isDigitChar ∧ fract_part.all isDigitChar) then
          (if round_up then (if out0 + 1 < 2 ^ 128 then some (out0 + 1) else none)
           else some out0)
        else none
    else
      if (if strict then
            int_part.all (fun c => decide (c = 48)) ∧ fract_part.all (fun c => decide (c = 48))
          else int_part.all isDigitChar ∧ fract_part.all isDigitChar) then
        some 0
      else none

/-- `NumericValue::FromStringInternal` from numeric_value.cc: split, parse
the exponent with `extra_scale = 9`, parse the number, and convert through
`FromFixedUint`; every failure is the "Invalid NUMERIC value" error
(modelled as `none`). -/
def FromStringInternal (str : List ℕ) (is_strict : Bool) : Option ℤ :=
  match SplitENotationParts str with
  | none => none
  | some parts =>
    match ParseExponent parts.exp_part kMaxFractionalDigits with
    | none => none
    | some exp =>
      match ParseNumber parts.int_part parts.fract_part exp is_strict with
      | none => none
      | some a => FromFixedUint a parts.negative

/-- `NumericValue::FromString` from numeric_value.cc (the lenient parse). -/
def FromString (str : List ℕ) : Option ℤ := FromStringInternal str false

theorem natDigits_ne_nil (n : ℕ) : natDigits n ≠ [] := by
  rw [natDigits.eq_def]
  split
  · simp
  · simp

theorem natDigits_lt10 (n : ℕ) : ∀ d ∈ natDigits n, d < 10 := by
  induction n using Nat.strong_induction_on with
  | _ n ih =>
    rw [natDigits.eq_def]
    split
    · intro d hd
      simp only [List.mem_singleton] at hd
      omega
    · intro d hd
      rw [List.mem_append] at hd
      rcases hd with hd | hd
      · exact ih (n / 10) (by omega) d hd
      · simp only [List.mem_singleton] at hd
        omega

theorem digitsVal_go (l : List ℕ) :
    ∀ a, l.foldl (fun a d => 10 * a + d) a = a * 10 ^ l.length + digitsVal l := by
  induction l with
  | nil => intro a; simp [digitsVal]
  | cons x xs ih =>
    intro a
    show xs.foldl _ (10 * a + x) = _
    rw [ih (10 * a + x)]
    unfold digitsVal
    show _ = a * 10 ^ (xs.length + 1) + xs.foldl _ (10 * 0 + x)
    rw [ih (10 * 0 + x), pow_succ]
    unfold digitsVal
    ring

theorem digitsVal_append (l1 l2 : List ℕ) :
    digitsVal (l1 ++ l2) = digitsVal l1 * 10 ^ l2.length + digitsVal l2 := by
  unfold digitsVal
  rw [List.foldl_append]
  exact digitsVal_go l2 _

theorem digitsVal_natDigits (n : ℕ) : digitsVal (natDigits n) = n := by
  induction n using Nat.strong_induction_on with
  | _ n ih =>
    rw [natDigits.eq_def]
    split
    · simp [digitsVal]
    · rw [digitsVal_append, ih (n / 10) (by omega)]
      simp [digitsVal]
      omega

theorem natDigits_head (n : ℕ) (hn : 0 < n) :
    ∃ h t, natDigits n = h :: t ∧ 0 < h ∧ h < 10 := by
  induction n using Nat.strong_induction_on with
  | _ n ih =>
    rw [natDigits.eq_def]
    split
    · exact ⟨n, [], rfl, hn, by omega⟩
    · rename_i hge
      obtain ⟨h, t, hht, hpos, hlt⟩ := ih (n / 10) (by omega) (by omega)
      exact ⟨h, t ++ [n % 10], by rw [hht]; rfl, hpos, hlt⟩

theorem charsVal_eq_digitsVal (l : List ℕ) :
    charsVal (l.map (fun d => 48 + d)) = digitsVal l := by
  unfold charsVal digitsVal
  rw [List.foldl_map]
  congr 1
  funext a d
  congr 1
  omega

theorem charsVal_canonicalDigits (n : ℕ) : charsVal (canonicalDigits n) = n := by
  unfold canonicalDigits
  rw [charsVal_eq_digitsVal, digitsVal_natDigits]

theorem canonicalDigits_ne_nil (n : ℕ) : canonicalDigits n ≠ [] := by
  unfold canonicalDigits
  simp [natDigits_ne_nil]

theorem canonicalDigits_mem (n : ℕ) : ∀ c ∈ canonicalDigits n, 48 ≤ c ∧ c ≤ 57 := by
  intro c hc
  unfold canonicalDigits at hc
  rw [List.mem_map] at hc
  obtain ⟨d, hd, rfl⟩ := hc
  have := natDigits_lt10 n d hd
  omega

theorem canonicalDigits_head (n : ℕ) (hn : 0 < n) :
    ∃ h t, canonicalDigits n = h :: t ∧ 49 ≤ h ∧ h ≤ 57 := by
  obtain ⟨h, t, hht, hpos, hlt⟩ := natDigits_head n hn
  refine ⟨48 + h, t.map (fun d => 48 + d), ?_, by omega, by omega⟩
  unfold canonicalDigits
  rw [hht]
  rfl

theorem trailingZeros_append_singleton (l : List ℕ) (c : ℕ) :
    trailingZeros (l ++ [c]) = if c = 48 then trailingZeros l + 1 else 0 := by
  unfold trailingZeros
  rw [List.reverse_append]
  show (List.takeWhile _ (c :: l.reverse)).length = _
  rw [List.takeWhile_cons]
  by_cases hc : c = 48
  · rw [if_pos hc]
    simp [hc]
  · rw [if_neg hc]
    simp [hc]

theorem canonicalDigits_decomp (z : ℕ) :
    ∀ n, 0 < n → z ≤ trailingZeros (canonicalDigits n) →
      10 ^ z ∣ n ∧
      canonicalDigits n = canonicalDigits (n / 10 ^ z) ++ List.replicate z 48 := by
  induction z with
  | zero =>
    intro n _ _
    simp
  | succ z ih =>
    intro n hn hz
    have hsplit : n < 10 ∨ 10 ≤ n := by omega
    rcases hsplit with hlt | hge
    · exfalso
      have hcd : canonicalDigits n = [] ++ [48 + n] := by
        unfold canonicalDigits
        rw [natDigits.eq_def, if_pos hlt]
        rfl
      rw [hcd, trailingZeros_append_singleton] at hz
      have : ¬ (48 + n = 48) := by omega
      rw [if_neg this] at hz
      omega
    · have hcd : canonicalDigits n = canonicalDigits (n / 10) ++ [48 + n % 10] := by
        unfold canonicalDigits
        rw [natDigits.eq_def, if_neg (by omega : ¬ n < 10), List.map_append]
        rfl
      rw [hcd, trailingZeros_append_singleton] at hz
      by_cases hlast : 48 + n % 10 = 48
      · rw [if_pos hlast] at hz
        have hmod : n % 10 = 0 := by omega
        have hq : 0 < n / 10 := by omega
        obtain ⟨hdvd, heq⟩ := ih (n / 10) hq (by omega)
        obtain ⟨k, hk⟩ := hdvd
        constructor
        · refine ⟨k, ?_⟩
          have h10 : n = 10 * (n / 10) := by omega
          rw [h10, hk, pow_succ]
          ring
        · rw [hcd, heq, hlast]
          have hdd : n / 10 / 10 ^ z = n / 10 ^ (z + 1) := by
            rw [Nat.div_div_eq_div_mul, pow_succ]
            ring_nf
          rw [hdd]
          rw [List.append_assoc]
          congr 1
          rw [show z + 1 = z + 1 from rfl]
          rw [← List.replicate_succ']
      · rw [if_neg hlast] at hz
        omega

theorem trailingZeros_lt_length (n : ℕ) (hn : 0 < n) :
    trailingZeros (canonicalDigits n) < (canonicalDigits n).length := by
  obtain ⟨_, heq⟩ :=
    canonicalDigits_decomp (trailingZeros (canonicalDigits n)) n hn (le_refl _)
  have hlen := congrArg List.length heq
  rw [List.length_append, List.length_replicate] at hlen
  have hpos : 0 < (canonicalDigits (n / 10 ^ trailingZeros (canonicalDigits n))).length :=
    List.length_pos.mpr (canonicalDigits_ne_nil _)
  omega

theorem dropWhile_eq_self_of_all (p : ℕ → Bool) (l : List ℕ)
    (h : ∀ c ∈ l, p c = false) : l.dropWhile p = l := by
  cases l with
  | nil => rfl
  | cons x xs =>
    rw [List.dropWhile_cons, h x (by simp)]
    simp

theorem takeWhile_eq_self_of_all (p : ℕ → Bool) (l : List ℕ)
    (h : ∀ c ∈ l, p c = true) : l.takeWhile p = l := by
  induction l with
  | nil => rfl
  | cons x xs ih =>
    rw [List.takeWhile_cons, h x (by simp), ih fun c hc => h c (by simp [hc])]
    simp

theorem dropWhile_eq_nil_of_all (p : ℕ → Bool) (l : List ℕ)
    (h : ∀ c ∈ l, p c = true) : l.dropWhile p = [] := by
  induction l with
  | nil => rfl
  | cons x xs ih =>
    rw [List.dropWhile_cons, h x (by simp)]
    simp only [if_pos rfl]
    exact ih fun c hc => h c (by simp [hc])

theorem span_eq_self_of_all (p : ℕ → Bool) (l : List ℕ)
    (h : ∀ c ∈ l, p c = true) : l.span p = (l, []) := by
  rw [List.span_eq_take_drop, takeWhile_eq_self_of_all p l h,
    dropWhile_eq_nil_of_all p l h]

theorem span_append_cons (p : ℕ → Bool) (l1 : List ℕ) (c : ℕ) (l2 : List ℕ)
    (h1 : ∀ x ∈ l1, p x = true) (hc : p c = false) :
    (l1 ++ c :: l2).span p = (l1, c :: l2) := by
  rw [List.span_eq_take_drop]
  induction l1 with
  | nil =>
    simp only [List.nil_append]
    rw [List.takeWhile_cons, hc, List.dropWhile_cons, hc]
    simp
  | cons x xs ih =>
    have hx : p x = true := h1 x (by simp)
    simp only [List.cons_append]
    rw [List.takeWhile_cons, hx, List.dropWhile_cons, hx]
    have := ih fun y hy => h1 y (by simp [hy])
    simp only [Prod.mk.injEq] at this
    simp [this.1, this.2]

theorem charsVal_cons_48 (l : List ℕ) : charsVal (48 :: l) = charsVal l := rfl

theorem charsVal_replicate_48_append (k : ℕ) (l : List ℕ) :
    charsVal (List.replicate k 48 ++ l) = charsVal l := by
  induction k with
  | zero => rfl
  | succ k ih =>
    rw [List.replicate_succ, List.cons_append, charsVal_cons_48, ih]

theorem charsVal_take_cd (n z : ℕ) (hn : 0 < n)
    (hz : z ≤ trailingZeros (canonicalDigits n)) :
    10 ^ z ∣ n ∧
      (canonicalDigits n).take ((canonicalDigits n).length - z) =
        canonicalDigits (n / 10 ^ z) := by
  obtain ⟨hdvd, heq⟩ := canonicalDigits_decomp z n hn hz
  refine ⟨hdvd, ?_⟩
  rw [heq, List.length_append, List.length_replicate, Nat.add_sub_cancel, List.take_left]

/-- The fractional-part formatting of `|v|` produced by
`AddDecimalPointAndAdjustZeros` with scale 9, with the sign stripped. -/
def formattedAbs (n : ℕ) : List ℕ :=
  let s : List ℕ := canonicalDigits n
  let L : ℕ := s.length
  let z : ℕ := min (trailingZeros s) 9
  if L < 10 then 48 :: 46 :: (List.replicate (9 - L) 48 ++ s.take (L - z))
  else if z < 9 then s.take (L - 9) ++ 46 :: (s.take (L - z)).drop (L - 9)
  else s.take (L - 9)

theorem addDecimal_eq (sign : List ℕ) (n : ℕ) (hn : 0 < n) :
    AddDecimalPointAndAdjustZeros sign.length 9 (sign ++ canonicalDigits n) =
      sign ++ formattedAbs n := by
  unfold AddDecimalPointAndAdjustZeros formattedAbs
  simp only [List.drop_left, List.length_append]
  have hzL : min (trailingZeros (canonicalDigits n)) 9 ≤ trailingZeros (canonicalDigits n) :=
    min_le_left _ _
  have htzL : trailingZeros (canonicalDigits n) < (canonicalDigits n).length :=
    trailingZeros_lt_length n hn
  set s := canonicalDigits n with hs
  set L := s.length with hL
  set z := min (trailingZeros s) 9 with hz
  have hzlt : z < L := lt_of_le_of_lt hzL htzL
  have htrim : (sign ++ s).take (sign.length + L - z) = sign ++ s.take (L - z) := by
    rw [List.take_append_eq_append_take,
      List.take_of_length_le (by omega : sign.length ≤ sign.length + L - z)]
    congr 1
    congr 1
    omega
  rw [htrim, show (9 : ℕ) + 1 = 10 from rfl]
  by_cases hsmall : L < 10
  · rw [if_pos hsmall, if_pos hsmall, List.take_left, List.drop_left]
    simp [List.append_assoc]
  · rw [if_neg hsmall, if_neg hsmall]
    by_cases hzn : z < 9
    · have htake2 : (sign ++ s.take (L - z)).take (sign.length + L - 9) =
          sign ++ s.take (L - 9) := by
        rw [List.take_append_eq_append_take,
          List.take_of_length_le (by omega : sign.length ≤ sign.length + L - 9)]
        have h9 : sign.length + L - 9 - sign.length = L - 9 := by omega
        rw [h9, List.take_take, min_eq_left (by omega : L - 9 ≤ L - z)]
      have hdrop2 : (sign ++ s.take (L - z)).drop (sign.length + L - 9) =
          (s.take (L - z)).drop (L - 9) := by
        rw [List.drop_append_eq_append_drop,
          List.drop_of_length_le (by omega : sign.length ≤ sign.length + L - 9)]
        have h9 : sign.length + L - 9 - sign.length = L - 9 := by omega
        rw [h9, List.nil_append]
      rw [if_pos hzn, if_pos hzn, htake2, hdrop2, List.append_assoc]
    · rw [if_neg hzn, if_neg hzn]
      have hz9 : z = 9 := by omega
      rw [hz9]

theorem toString_eq (v : ℤ) (hv : v ≠ 0) :
    ToString v = (if v < 0 then [45] else []) ++ formattedAbs v.natAbs := by
  unfold ToString fixedIntAppendToString
  rw [if_neg hv]
  have hn : 0 < v.natAbs := by omega
  have hlen : (if v < 0 then (1 : ℕ) else 0) = (if v < 0 then [(45 : ℕ)] else []).length := by
    by_cases hvn : v < 0 <;> simp [hvn]
  rw [hlen]
  exact addDecimal_eq _ v.natAbs hn

theorem isSpaceChar_eq_false (c : ℕ) (h : 45 ≤ c) : isSpaceChar c = false := by
  unfold isSpaceChar
  simp only [decide_eq_false_iff_not]
  omega

theorem trim_id (l : List ℕ) (h : ∀ c ∈ l, 45 ≤ c) :
    l.dropWhile isSpaceChar = l ∧ (l.reverse.dropWhile isSpaceChar).reverse = l := by
  constructor
  · exact dropWhile_eq_self_of_all _ _ fun c hc => isSpaceChar_eq_false c (h c hc)
  · rw [dropWhile_eq_self_of_all _ _ fun c hc =>
      isSpaceChar_eq_false c (h c (List.mem_reverse.mp hc)), List.reverse_reverse]

theorem split_format_dotted (negF : Bool) (a : ℕ) (A' B : List ℕ)
    (ha : 48 ≤ a ∧ a ≤ 57)
    (hAd : ∀ c ∈ A', 48 ≤ c ∧ c ≤ 57) (hBd : ∀ c ∈ B, 48 ≤ c ∧ c ≤ 57) :
    SplitENotationParts ((if negF then [45] else []) ++ (a :: A' ++ 46 :: B)) =
      some ⟨negF, a :: A', B, []⟩ := by
  have hC : ∀ c ∈ a :: (A' ++ 46 :: B), 45 ≤ c ∧ c ≤ 57 := by
    intro c hc
    rcases List.mem_cons.mp hc with rfl | hc
    · omega
    rcases List.mem_append.mp hc with hc | hc
    · have := hAd c hc; omega
    rcases List.mem_cons.mp hc with rfl | hc
    · omega
    · have := hBd c hc; omega
  have hE : (a :: (A' ++ 46 :: B)).reverse.span (fun c => decide (c ≠ 101 ∧ c ≠ 69)) =
      ((a :: (A' ++ 46 :: B)).reverse, []) := by
    apply span_eq_self_of_all
    intro c hc
    have := hC c (List.mem_reverse.mp hc)
    simp only [decide_eq_true_eq]
    omega
  have hDot : (a :: (A' ++ 46 :: B)).span (fun c => decide (c ≠ 46)) =
      (a :: A', 46 :: B) := by
    have h1 : ∀ x ∈ a :: A', decide (x ≠ 46) = true := by
      intro x hx
      have hxb : 48 ≤ x ∧ x ≤ 57 := by
        rcases List.mem_cons.mp hx with rfl | hx
        · exact ha
        · exact hAd x hx
      simp only [decide_eq_true_eq]
      omega
    have := span_append_cons (fun c => decide (c ≠ 46)) (a :: A') 46 B h1 (by decide)
    simpa using this
  cases negF with
  | false =>
    have htrim := trim_id (a :: (A' ++ 46 :: B)) (fun c hc => (hC c hc).1)
    have h45 : decide (a = 45) = false := by
      simp only [decide_eq_false_iff_not]
      omega
    have h43 : decide (a = 43) = false := by
      simp only [decide_eq_false_iff_not]
      omega
    unfold SplitENotationParts
    simp only [Bool.false_eq_true, if_false, List.nil_append, List.cons_append]
    rw [htrim.1, htrim.2, if_neg (List.cons_ne_nil a _)]
    simp only [List.headD_cons, h45, h43, Bool.or_self, Bool.false_eq_true, if_false]
    rw [hE]
    simp only []
    rw [hDot]
    rfl
  | true =>
    have hC' : ∀ c ∈ 45 :: a :: (A' ++ 46 :: B), 45 ≤ c ∧ c ≤ 57 := by
      intro c hc
      rcases List.mem_cons.mp hc with rfl | hc
      · omega
      · exact hC c hc
    have htrim := trim_id (45 :: a :: (A' ++ 46 :: B)) (fun c hc => (hC' c hc).1)
    unfold SplitENotationParts
    simp only [if_true, List.cons_append, List.nil_append]
    rw [htrim.1, htrim.2, if_neg (List.cons_ne_nil 45 _)]
    simp only [List.headD_cons, decide_True, Bool.true_or, if_true, List.tail_cons]
    rw [hE]
    simp only []
    rw [hDot]
    rfl

theorem split_format_plain (negF : Bool) (a : ℕ) (A' : List ℕ)
    (ha : 48 ≤ a ∧ a ≤ 57) (hAd : ∀ c ∈ A', 48 ≤ c ∧ c ≤ 57) :
    SplitENotationParts ((if negF then [45] else []) ++ (a :: A')) =
      some ⟨negF, a :: A', [], []⟩ := by
  have hC : ∀ c ∈ a :: A', 45 ≤ c ∧ c ≤ 57 := by
    intro c hc
    rcases List.mem_cons.mp hc with rfl | hc
    · omega
    · have := hAd c hc; omega
  have hE : (a :: A').reverse.span (fun c => decide (c ≠ 101 ∧ c ≠ 69)) =
      ((a :: A').reverse, []) := by
    apply span_eq_self_of_all
    intro c hc
    have := hC c (List.mem_reverse.mp hc)
    simp only [decide_eq_true_eq]
    omega
  have hDot : (a :: A').span (fun c => decide (c ≠ 46)) = (a :: A', []) := by
    apply span_eq_self_of_all
    intro c hc
    have hcb : 48 ≤ c ∧ c ≤ 57 := by
      rcases List.mem_cons.mp hc with rfl | hc
      · exact ha
      · exact hAd c hc
    simp only [decide_eq_true_eq]
    omega
  cases negF with
  | false =>
    have htrim := trim_id (a :: A') (fun c hc => (hC c hc).1)
    have h45 : decide (a = 45) = false := by
      simp only [decide_eq_false_iff_not]
      omega
    have h43 : decide (a = 43) = false := by
      simp only [decide_eq_false_iff_not]
      omega
    unfold SplitENotationParts
    simp only [Bool.false_eq_true, if_false, List.nil_append]
    rw [htrim.1, htrim.2, if_neg (List.cons_ne_nil a _)]
    simp only [List.headD_cons, h45, h43, Bool.or_self, Bool.false_eq_true, if_false]
    rw [hE]
    simp only []
    rw [hDot]
    rfl
  | true =>
    have hC' : ∀ c ∈ 45 :: a :: A', 45 ≤ c ∧ c ≤ 57 := by
      intro c hc
      rcases List.mem_cons.mp hc with rfl | hc
      · omega
      · exact hC c hc
    have htrim := trim_id (45 :: a :: A') (fun c hc => (hC' c hc).1)
    unfold SplitENotationParts
    simp only [if_true, List.cons_append, List.nil_append]
    rw [htrim.1, htrim.2, if_neg (List.cons_ne_nil 45 _)]
    simp only [List.headD_cons, decide_True, Bool.true_or, if_true, List.tail_cons]
    rw [hE]
    simp only []
    rw [hDot]
    rfl

theorem scaleByPow10_lt19 (out e : ℕ) (he : e < 19) :
    scaleByPow10 out e =
      if e = 0 then some out
      else if out * 10 ^ e < 2 ^ 128 then some (out * 10 ^ e) else none := by
  rw [scaleByPow10]
  rw [dif_neg (by omega : ¬ 19 ≤ e)]

theorem parseNumber_format (ip B : List ℕ) (z : ℕ) (hz : z ≤ 9)
    (hlen : B.length = 9 - z) (hip : ip ≠ [])
    (hd : ∀ c ∈ ip ++ B, 48 ≤ c ∧ c ≤ 57)
    (hof : charsVal (ip ++ B) * 10 ^ z < 2 ^ 128) :
    ParseNumber ip B 9 false = some (charsVal (ip ++ B) * 10 ^ z) := by
  have hall : (ip ++ B).all isDigitChar = true := by
    rw [List.all_eq_true]
    intro c hc
    unfold isDigitChar
    simp only [decide_eq_true_eq]
    exact hd c hc
  have hcv : charsVal (ip ++ B) < 2 ^ 128 :=
    lt_of_le_of_lt (Nat.le_mul_of_pos_right _ (pow_pos (by norm_num) z)) hof
  have hc1 : ((9 : ℤ) < (B.length : ℤ)) = False := by
    simp only [eq_iff_iff, iff_false, not_lt]
    rw [hlen]
    omega
  unfold ParseNumber
  rw [if_pos (by norm_num : (0 : ℤ) ≤ 9)]
  simp only [hc1, if_false, List.take_length, List.drop_length]
  rw [if_neg hip]
  unfold ParseFromStringSegmentsU
  rw [if_pos ⟨hip, hall⟩, if_pos hcv]
  have h9 : (9 : ℤ).toNat - B.length = z := by
    have h99 : (9 : ℤ).toNat = 9 := rfl
    rw [h99, hlen]
    omega
  rw [h9]
  show (match scaleByPow10 (charsVal (ip ++ B)) z with
    | none => none
    | some out1 =>
      if (if false = true then List.all [] fun c => decide (c = 48)
          else List.all [] isDigitChar) = true then
        if false = true then if out1 + 1 < 2 ^ 128 then some (out1 + 1) else none
        else some out1
      else none) = some (charsVal (ip ++ B) * 10 ^ z)
  rw [scaleByPow10_lt19 _ z (by omega)]
  by_cases hz0 : z = 0
  · subst hz0
    rw [if_pos rfl]
    simp
  · rw [if_neg hz0, if_pos hof]
    simp

theorem fromStringInternal_eq (str : List ℕ) (parts : ENotationParts) (n : ℕ)
    (hsplit : SplitENotationParts str = some parts)
    (hexp : parts.exp_part = [])
    (hnum : ParseNumber parts.int_part parts.fract_part 9 false = some n) :
    FromStringInternal str false = FromFixedUint n parts.negative := by
  have hPE : ParseExponent parts.exp_part kMaxFractionalDigits = some 9 := by
    unfold ParseExponent
    rw [if_pos hexp]
    norm_num [kMaxFractionalDigits]
  unfold FromStringInternal
  rw [hsplit]
  show (match ParseExponent parts.exp_part kMaxFractionalDigits with
    | none => none
    | some exp =>
      match ParseNumber parts.int_part parts.fract_part exp false with
      | none => none
      | some a => FromFixedUint a parts.negative) = FromFixedUint n parts.negative
  rw [hPE]
  show (match ParseNumber parts.int_part parts.fract_part 9 false with
    | none => none
    | some a => FromFixedUint a parts.negative) = FromFixedUint n parts.negative
  rw [hnum]

theorem fromFixedUint_natAbs (v : ℤ) (hv : IsValidNumeric v) :
    FromFixedUint v.natAbs (decide (v < 0)) = some v := by
  have hv' : v.natAbs ≤ kNumericMax := hv
  unfold FromFixedUint
  rw [if_pos hv']
  by_cases hneg : v < 0
  · rw [if_pos (decide_eq_true hneg)]
    simp only [Option.some.injEq]
    omega
  · rw [if_neg (by simp [hneg])]
    simp only [Option.some.injEq]
    omega

theorem fromStringInternal_formatted (negF : Bool) (n : ℕ) (hn : 0 < n)
    (hmax : n ≤ kNumericMax) :
    FromStringInternal ((if negF then [45] else []) ++ formattedAbs n) false =
      FromFixedUint n negF := by
  have hmem_take : ∀ m, ∀ c ∈ (canonicalDigits n).take m, 48 ≤ c ∧ c ≤ 57 :=
    fun m c hc => canonicalDigits_mem n c (List.take_subset m _ hc)
  have hmem_dropTake : ∀ m k, ∀ c ∈ ((canonicalDigits n).take m).drop k, 48 ≤ c ∧ c ≤ 57 :=
    fun m k c hc => hmem_take m c (List.drop_subset k _ hc)
  have htzL : trailingZeros (canonicalDigits n) < (canonicalDigits n).length :=
    trailingZeros_lt_length n hn
  have hzle : min (trailingZeros (canonicalDigits n)) 9 ≤ trailingZeros (canonicalDigits n) :=
    min_le_left _ _
  have hz9 : min (trailingZeros (canonicalDigits n)) 9 ≤ 9 := min_le_right _ _
  obtain ⟨hdvd, htake⟩ := charsVal_take_cd n (min (trailingZeros (canonicalDigits n)) 9) hn hzle
  have hq : charsVal ((canonicalDigits n).take
        ((canonicalDigits n).length - min (trailingZeros (canonicalDigits n)) 9)) =
      n / 10 ^ min (trailingZeros (canonicalDigits n)) 9 := by
    rw [htake, charsVal_canonicalDigits]
  have hqmul : n / 10 ^ min (trailingZeros (canonicalDigits n)) 9 *
      10 ^ min (trailingZeros (canonicalDigits n)) 9 = n := Nat.div_mul_cancel hdvd
  have hn128 : n < 2 ^ 128 := lt_of_le_of_lt hmax (by unfold kNumericMax; norm_num)
  simp only [formattedAbs]
  by_cases hsmall : (canonicalDigits n).length < 10
  · rw [if_pos hsmall]
    have hBd : ∀ c ∈ List.replicate (9 - (canonicalDigits n).length) 48 ++
        (canonicalDigits n).take
          ((canonicalDigits n).length - min (trailingZeros (canonicalDigits n)) 9),
        48 ≤ c ∧ c ≤ 57 := by
      intro c hc
      rcases List.mem_append.mp hc with hc | hc
      · rw [List.eq_of_mem_replicate hc]
        omega
      · exact hmem_take _ c hc
    have hsplit := split_format_dotted negF 48 []
      (List.replicate (9 - (canonicalDigits n).length) 48 ++
        (canonicalDigits n).take
          ((canonicalDigits n).length - min (trailingZeros (canonicalDigits n)) 9))
      (by omega) (by intro c hc; simp at hc) hBd
    simp only [List.nil_append] at hsplit
    rw [List.singleton_append] at hsplit
    have hcv : charsVal ([48] ++ (List.replicate (9 - (canonicalDigits n).length) 48 ++
        (canonicalDigits n).take
          ((canonicalDigits n).length - min (trailingZeros (canonicalDigits n)) 9))) =
        n / 10 ^ min (trailingZeros (canonicalDigits n)) 9 := by
      rw [List.singleton_append, charsVal_cons_48, charsVal_replicate_48_append, hq]
    have hnum : ParseNumber [48]
        (List.replicate (9 - (canonicalDigits n).length) 48 ++
          (canonicalDigits n).take
            ((canonicalDigits n).length - min (trailingZeros (canonicalDigits n)) 9))
        9 false = some n := by
      have h := parseNumber_format [48]
        (List.replicate (9 - (canonicalDigits n).length) 48 ++
          (canonicalDigits n).take
            ((canonicalDigits n).length - min (trailingZeros (canonicalDigits n)) 9))
        (min (trailingZeros (canonicalDigits n)) 9) hz9
        (by rw [List.length_append, List.length_replicate, List.length_take]; omega)
        (by simp)
        (by
          intro c hc
          rcases List.mem_append.mp hc with hc | hc
          · simp at hc
            omega
          · exact hBd c hc)
        (by rw [hcv, hqmul]; exact hn128)
      rw [h, hcv, hqmul]
    rw [fromStringInternal_eq _
      ⟨negF, [48],
        List.replicate (9 - (canonicalDigits n).length) 48 ++
          (canonicalDigits n).take
            ((canonicalDigits n).length - min (trailingZeros (canonicalDigits n)) 9), []⟩
      n hsplit rfl hnum]
  · rw [if_neg hsmall]
    obtain ⟨h0, t, hht, hh1, hh2⟩ := canonicalDigits_head n hn
    have hL10 : 10 ≤ (canonicalDigits n).length := by omega
    have hcons : (canonicalDigits n).take ((canonicalDigits n).length - 9) =
        h0 :: t.take ((canonicalDigits n).length - 10) := by
      have h91 : (canonicalDigits n).length - 9 = ((canonicalDigits n).length - 10) + 1 := by
        omega
      rw [h91, hht, List.take_succ_cons]
    have hA'd : ∀ c ∈ t.take ((canonicalDigits n).length - 10), 48 ≤ c ∧ c ≤ 57 := by
      intro c hc
      refine canonicalDigits_mem n c ?_
      rw [hht]
      exact List.mem_cons_of_mem _ (List.take_subset _ _ hc)
    by_cases hzn : min (trailingZeros (canonicalDigits n)) 9 < 9
    · rw [if_pos hzn]
      have hBd : ∀ c ∈ ((canonicalDigits n).take
          ((canonicalDigits n).length - min (trailingZeros (canonicalDigits n)) 9)).drop
            ((canonicalDigits n).length - 9), 48 ≤ c ∧ c ≤ 57 :=
        fun c hc => hmem_dropTake _ _ c hc
      have hsplit := split_format_dotted negF h0 (t.take ((canonicalDigits n).length - 10))
        (((canonicalDigits n).take
          ((canonicalDigits n).length - min (trailingZeros (canonicalDigits n)) 9)).drop
            ((canonicalDigits n).length - 9))
        (by omega) hA'd hBd
      simp only [← List.cons_append] at hsplit
      rw [← hcons] at hsplit
      have hjoin : (canonicalDigits n).take ((canonicalDigits n).length - 9) ++
          ((canonicalDigits n).take
            ((canonicalDigits n).length - min (trailingZeros (canonicalDigits n)) 9)).drop
              ((canonicalDigits n).length - 9) =
          (canonicalDigits n).take
            ((canonicalDigits n).length - min (trailingZeros (canonicalDigits n)) 9) := by
        have ht2 : (canonicalDigits n).take ((canonicalDigits n).length - 9) =
            ((canonicalDigits n).take
              ((canonicalDigits n).length - min (trailingZeros (canonicalDigits n)) 9)).take
                ((canonicalDigits n).length - 9) := by
          rw [List.take_take, min_eq_left (by omega)]
        rw [ht2, List.take_append_drop]
      have hnum : ParseNumber ((canonicalDigits n).take ((canonicalDigits n).length - 9))
          (((canonicalDigits n).take
            ((canonicalDigits n).length - min (trailingZeros (canonicalDigits n)) 9)).drop
              ((canonicalDigits n).length - 9)) 9 false = some n := by
        have h := parseNumber_format
          ((canonicalDigits n).take ((canonicalDigits n).length - 9))
          (((canonicalDigits n).take
            ((canonicalDigits n).length - min (trailingZeros (canonicalDigits n)) 9)).drop
              ((canonicalDigits n).length - 9))
          (min (trailingZeros (canonicalDigits n)) 9) hz9
          (by rw [List.length_drop, List.length_take]; omega)
          (by rw [hcons]; exact List.cons_ne_nil _ _)
          (by
            intro c hc
            rcases List.mem_append.mp hc with hc | hc
            · exact hmem_take _ c hc
            · exact hBd c hc)
          (by rw [hjoin, hq, hqmul]; exact hn128)
        rw [h, hjoin, hq, hqmul]
      rw [fromStringInternal_eq _
        ⟨negF, (canonicalDigits n).take ((canonicalDigits n).length - 9),
          ((canonicalDigits n).take
            ((canonicalDigits n).length - min (trailingZeros (canonicalDigits n)) 9)).drop
              ((canonicalDigits n).length - 9), []⟩
        n hsplit rfl hnum]
    · rw [if_neg hzn]
      have htz9 : 9 ≤ trailingZeros (canonicalDigits n) := by omega
      obtain ⟨hdvd9, htake9⟩ := charsVal_take_cd n 9 hn htz9
      have hsplit := split_format_plain negF h0 (t.take ((canonicalDigits n).length - 10))
        (by omega) hA'd
      rw [← hcons] at hsplit
      have hnum : ParseNumber ((canonicalDigits n).take ((canonicalDigits n).length - 9))
          [] 9 false = some n := by
        have hcv9 : charsVal ((canonicalDigits n).take ((canonicalDigits n).length - 9) ++ []) =
            n / 10 ^ 9 := by
          rw [List.append_nil, htake9, charsVal_canonicalDigits]
        have h := parseNumber_format
          ((canonicalDigits n).take ((canonicalDigits n).length - 9)) [] 9 (le_refl 9) rfl
          (by rw [hcons]; exact List.cons_ne_nil _ _)
          (by
            intro c hc
            rw [List.append_nil] at hc
            exact hmem_take _ c hc)
          (by rw [hcv9, Nat.div_mul_cancel hdvd9]; exact hn128)
        rw [h, hcv9, Nat.div_mul_cancel hdvd9]
      rw [fromStringInternal_eq _
        ⟨negF, (canonicalDigits n).take ((canonicalDigits n).length - 9), [], []⟩
        n hsplit rfl hnum]

/-- **C2**: for every valid NUMERIC value `d`, parsing the string produced by
formatting `d` yields `d` again: `FromString (ToString d)` succeeds and
returns a value equal to `d`. -/
theorem fromString_toString_roundtrip (v : ℤ) (hv : IsValidNumeric v) :
    FromString (ToString v) = some v := by
  have hv' : v.natAbs ≤ kNumericMax := hv
  unfold FromString
  by_cases hv0 : v = 0
  · subst hv0
    have h1 : ToString 0 = [48] := by
      unfold ToString
      rw [if_pos rfl]
    rw [h1]
    have hsplit : SplitENotationParts [48] = some ⟨false, [48], [], []⟩ := by
      have h := split_format_plain false 48 [] (by omega) (by intro c hc; simp at hc)
      simpa using h
    have hnum : ParseNumber [48] [] 9 false = some 0 := by
      have h := parseNumber_format [48] [] 9 (by omega) rfl (by simp)
        (by intro c hc; simp at hc; omega) (by decide)
      rw [h]
      decide
    rw [fromStringInternal_eq [48] ⟨false, [48], [], []⟩ 0 hsplit rfl hnum]
    unfold FromFixedUint
    rw [if_pos (show (0 : ℕ) ≤ kNumericMax by unfold kNumericMax; norm_num)]
    rfl
  · rw [toString_eq v hv0]
    have hsign : (if v < 0 then [45] else ([] : List ℕ)) =
        (if (decide (v < 0) : Bool) then [45] else []) := by
      by_cases h : v < 0 <;> simp [h]
    rw [hsign, fromStringInternal_formatted (decide (v < 0)) v.natAbs (by omega) hv']
    exact fromFixedUint_natAbs v hv

/-- Closed instance of the C2 round trip at `v = -123` (scaled value of the
decimal -0.000000123). -/
theorem fromString_toString_roundtrip_witness :
    IsValidNumeric (-123 : ℤ) ∧ FromString (ToString (-123 : ℤ)) = some (-123 : ℤ) :=
  ⟨by decide, fromString_toString_roundtrip (-123) (by decide)⟩

/-- **C6**: if the exponent part is syntactically `-` followed by decimal
digits but its value is below the minimum 64-bit signed integer, `ParseExponent`
saturates to that minimum instead of rejecting, and `ParseNumber` then rounds
the (otherwise valid) significand to zero; end to end,
`FromString "1e-99999999999999999999" = some 0`. -/
theorem parse_exponent_saturates (ds ip fp : List ℕ)
    (hds : ds ≠ []) (hdsd : ∀ c ∈ ds, 48 ≤ c ∧ c ≤ 57)
    (hbig : 2 ^ 63 < charsVal ds)
    (hip : ∀ c ∈ ip, 48 ≤ c ∧ c ≤ 57) (hfp : ∀ c ∈ fp, 48 ≤ c ∧ c ≤ 57)
    (hne : ip.length + fp.length ≠ 0) (hiplen : (ip.length : ℤ) < 2 ^ 63) :
    ParseExponent (45 :: ds) 9 = some (-(2 ^ 63)) ∧
      ParseNumber ip fp (-(2 ^ 63)) false = some 0 ∧
      FromString ([49, 101, 45] ++ List.replicate 20 57) = some 0 := by
  have hall : ds.all isDigitChar = true := by
    rw [List.all_eq_true]
    intro c hc
    unfold isDigitChar
    simp only [decide_eq_true_eq]
    exact hdsd c hc
  have hI64 : ParseFromStringStrictI64 (45 :: ds) = none := by
    unfold ParseFromStringStrictI64
    show (let negate : Bool := decide (45 = 45);
      let digs : List ℕ := if decide (45 = 45) || decide (45 = 43) then ds else 45 :: ds;
      if digs ≠ [] ∧ digs.all isDigitChar then
        let w : ℤ := if negate then -(charsVal digs : ℤ) else (charsVal digs : ℤ)
        (if -(2 ^ 63) ≤ w ∧ w < 2 ^ 63 then some w else none)
      else none) = none
    simp only [decide_True, Bool.true_or, if_true]
    rw [if_pos ⟨hds, hall⟩]
    rw [if_neg]
    intro ⟨h1, _⟩
    have hcast : (2 ^ 63 : ℤ) < (charsVal ds : ℤ) := by exact_mod_cast hbig
    omega
  have hPE : ParseExponent (45 :: ds) 9 = some (-(2 ^ 63)) := by
    unfold ParseExponent
    rw [if_neg (List.cons_ne_nil _ _), hI64]
    show (if 1 < (45 :: ds).length ∧ (45 :: ds).headD 0 = 45 ∧ (45 :: ds).tail.all isDigitChar
      then some (-(2 ^ 63)) else none) = some (-(2 ^ 63))
    rw [if_pos]
    refine ⟨?_, rfl, ?_⟩
    · have : 0 < ds.length := List.length_pos.mpr hds
      simp only [List.length_cons]
      omega
    · simpa using hall
  have hPN : ParseNumber ip fp (-(2 ^ 63)) false = some 0 := by
    have hipall : ip.all isDigitChar = true := by
      rw [List.all_eq_true]
      intro c hc
      unfold isDigitChar
      simp only [decide_eq_true_eq]
      exact hip c hc
    have hfpall : fp.all isDigitChar = true := by
      rw [List.all_eq_true]
      intro c hc
      unfold isDigitChar
      simp only [decide_eq_true_eq]
      exact hfp c hc
    unfold ParseNumber
    rw [if_neg (by norm_num : ¬ (0 : ℤ) ≤ -(2 ^ 63))]
    rw [if_neg hne]
    rw [if_neg (by
      intro h
      have : (2 ^ 63 : ℤ) ≤ (ip.length : ℤ) := by omega
      omega)]
    simp only [Bool.false_eq_true, if_false]
    rw [if_pos ⟨hipall, hfpall⟩]
  exact ⟨hPE, hPN, by decide⟩

/-- Closed instance of C6: the exponent string `-99999999999999999999` (value
below the int64 minimum) saturates, the significand `1` rounds to zero, and
the full parse of `"1e-99999999999999999999"` returns zero. -/
theorem parse_exponent_saturates_witness :
    (2 ^ 63 < charsVal (List.replicate 20 57) ∧ ((([49] : List ℕ)).length : ℤ) < 2 ^ 63) ∧
      ParseExponent (45 :: List.replicate 20 57) 9 = some (-(2 ^ 63)) ∧
        ParseNumber [49] [] (-(2 ^ 63)) false = some 0 ∧
        FromString ([49, 101, 45] ++ List.replicate 20 57) = some 0 :=
  ⟨⟨by decide, by decide⟩,
    parse_exponent_saturates (List.replicate 20 57) [49] [] (by decide)
      (by decide) (by decide) (by decide) (by decide) (by decide) (by decide)⟩

theorem getLastD_irrel (l : List ℕ) (d d' : ℕ) (h : l ≠ []) :
    l.getLastD d = l.getLastD d' := by
  cases l with
  | nil => exact absurd rfl h
  | cons x xs => rw [List.getLastD_cons, List.getLastD_cons]

theorem getLastD_append_ne (l1 l2 : List ℕ) (d : ℕ) (h : l2 ≠ []) :
    (l1 ++ l2).getLastD d = l2.getLastD d := by
  induction l1 generalizing d with
  | nil => rfl
  | cons x xs ih =>
    rw [List.cons_append, List.getLastD_cons, ih x]
    exact getLastD_irrel l2 x d h

theorem getLastD_mem (l : List ℕ) (d : ℕ) (h : l ≠ []) : l.getLastD d ∈ l := by
  induction l generalizing d with
  | nil => exact absurd rfl h
  | cons x xs ih =>
    rw [List.getLastD_cons]
    by_cases hxs : xs = []
    · subst hxs
      simp [List.getLastD_nil]
    · exact List.mem_cons_of_mem _ (ih x hxs)

theorem formattedAbs_shape (n : ℕ) (hn : 0 < n) :
    ∃ c t', formattedAbs n = c :: t' ∧ 48 ≤ c ∧ c ≤ 57 ∧
      (∀ d, (formattedAbs n).getLastD d ≠ 46) ∧
      (c = 48 → t'.headD 0 = 46) := by
  have hmem_take : ∀ m, ∀ c ∈ (canonicalDigits n).take m, 48 ≤ c ∧ c ≤ 57 :=
    fun m c hc => canonicalDigits_mem n c (List.take_subset m _ hc)
  have hmem_dropTake : ∀ m k, ∀ c ∈ ((canonicalDigits n).take m).drop k, 48 ≤ c ∧ c ≤ 57 :=
    fun m k c hc => hmem_take m c (List.drop_subset k _ hc)
  have htzL : trailingZeros (canonicalDigits n) < (canonicalDigits n).length :=
    trailingZeros_lt_length n hn
  have hzle : min (trailingZeros (canonicalDigits n)) 9 ≤ trailingZeros (canonicalDigits n) :=
    min_le_left _ _
  have hz9 : min (trailingZeros (canonicalDigits n)) 9 ≤ 9 := min_le_right _ _
  simp only [formattedAbs]
  by_cases hsmall : (canonicalDigits n).length < 10
  · rw [if_pos hsmall]
    have hTne : (canonicalDigits n).take
        ((canonicalDigits n).length - min (trailingZeros (canonicalDigits n)) 9) ≠ [] := by
      apply List.ne_nil_of_length_pos
      rw [List.length_take]
      omega
    refine ⟨48, 46 :: (List.replicate (9 - (canonicalDigits n).length) 48 ++
        (canonicalDigits n).take
          ((canonicalDigits n).length - min (trailingZeros (canonicalDigits n)) 9)),
      rfl, by omega, by omega, ?_, fun _ => rfl⟩
    intro d
    rw [List.getLastD_cons, List.getLastD_cons, getLastD_append_ne _ _ _ hTne]
    have := hmem_take _ _ (getLastD_mem _ 46 hTne)
    omega
  · obtain ⟨h0, t, hht, hh1, hh2⟩ := canonicalDigits_head n hn
    have hL10 : 10 ≤ (canonicalDigits n).length := by omega
    have hcons : (canonicalDigits n).take ((canonicalDigits n).length - 9) =
        h0 :: t.take ((canonicalDigits n).length - 10) := by
      have h91 : (canonicalDigits n).length - 9 = ((canonicalDigits n).length - 10) + 1 := by
        omega
      rw [h91, hht, List.take_succ_cons]
    rw [if_neg hsmall]
    by_cases hzn : min (trailingZeros (canonicalDigits n)) 9 < 9
    · rw [if_pos hzn]
      have hDne : ((canonicalDigits n).take
          ((canonicalDigits n).length - min (trailingZeros (canonicalDigits n)) 9)).drop
            ((canonicalDigits n).length - 9) ≠ [] := by
        apply List.ne_nil_of_length_pos
        rw [List.length_drop, List.length_take]
        omega
      refine ⟨h0, t.take ((canonicalDigits n).length - 10) ++ 46 ::
          ((canonicalDigits n).take
            ((canonicalDigits n).length - min (trailingZeros (canonicalDigits n)) 9)).drop
              ((canonicalDigits n).length - 9),
        ?_, by omega, by omega, ?_, fun hc => absurd hc (by omega)⟩
      · rw [hcons, List.cons_append]
      · intro d
        rw [getLastD_append_ne _ _ _ (List.cons_ne_nil _ _), List.getLastD_cons,
          getLastD_irrel _ 46 d hDne]
        have := hmem_dropTake _ _ _ (getLastD_mem _ d hDne)
        omega
    · rw [if_neg hzn]
      refine ⟨h0, t.take ((canonicalDigits n).length - 10), hcons, by omega, by omega,
        ?_, fun hc => absurd hc (by omega)⟩
      intro d
      have hTne : (canonicalDigits n).take ((canonicalDigits n).length - 9) ≠ [] := by
        rw [hcons]
        exact List.cons_ne_nil _ _
      have := hmem_take _ _ (getLastD_mem _ d hTne)
      omega

/-- **C7 counterexample**: -123 is a valid NUMERIC scaled value (the decimal
-0.000000123) and its formatted output begins with the two characters
`-` `0`, contradicting the claim that no formatted output begins with
`-0`. -/
theorem format_begins_minus_zero :
    IsValidNumeric (-123 : ℤ) ∧ (ToString (-123 : ℤ)).take 2 = [45, 48] := by
  constructor
  · decide
  · have h : ToString (-123 : ℤ) = [45, 48, 46, 48, 48, 48, 48, 48, 48, 49, 50, 51] := by
      simp [ToString, AddDecimalPointAndAdjustZeros, fixedIntAppendToString, canonicalDigits,
        natDigits, trailingZeros, kMaxFractionalDigits]
    rw [h]
    rfl

/-- **C7 (amended)**: formatting is sign-canonical except for the `-0` clause:
`format 0 = "0"`; no output begins with `+`; an output begins with `-`
exactly when the value is negative; no output ends with `.`; and an output
that begins with `-0` continues with `.` (a negative value of magnitude
below one, e.g. -0.000000123 — so outputs CAN begin with `-0`). -/
theorem format_sign_canonical (v : ℤ) (hv : IsValidNumeric v) :
    ToString 0 = [48] ∧
    (ToString v).headD 0 ≠ 43 ∧
    (v < 0 ↔ (ToString v).headD 0 = 45) ∧
    (∀ d, (ToString v).getLastD d ≠ 46) ∧
    ((ToString v).take 2 = [45, 48] → (ToString v).take 3 = [45, 48, 46]) := by
  have hz : ToString 0 = [48] := by
    unfold ToString
    rw [if_pos rfl]
  by_cases hv0 : v = 0
  · subst hv0
    rw [hz]
    refine ⟨rfl, by decide, by decide, fun d => ?_, by decide⟩
    rw [List.getLastD_cons, List.getLastD_nil]
    decide
  · obtain ⟨c, t', hfa, hc1, hc2, hlast, hhd⟩ := formattedAbs_shape v.natAbs (by omega)
    rw [hfa] at hlast
    rw [toString_eq v hv0, hfa]
    by_cases hneg : v < 0
    · rw [if_pos hneg, List.singleton_append]
      refine ⟨hz, by simp, by simp [hneg], fun d => ?_, fun h2 => ?_⟩
      · rw [List.getLastD_cons]
        exact hlast 45
      · rw [show (2 : ℕ) = 1 + 1 from rfl, List.take_succ_cons,
          show (1 : ℕ) = 0 + 1 from rfl, List.take_succ_cons, List.take_zero] at h2
        have hc48 : c = 48 := by simpa using h2
        have hh := hhd hc48
        cases t' with
        | nil => simp at hh
        | cons x r =>
          simp only [List.headD_cons] at hh
          rw [hc48, hh]
          rfl
    · rw [if_neg hneg, List.nil_append]
      refine ⟨hz, ?_, ?_, fun d => hlast d, fun h2 => ?_⟩
      · rw [List.headD_cons]
        omega
      · refine iff_of_false hneg ?_
        rw [List.headD_cons]
        omega
      · rw [show (2 : ℕ) = 1 + 1 from rfl, List.take_succ_cons] at h2
        have hc45 : c = 45 := by
          have := congrArg (fun l => l.headD 0) h2
          simpa using this
        omega

/-- Closed instance of the amended C7 properties at `v = -123`. -/
theorem format_sign_canonical_witness :
    IsValidNumeric (-123 : ℤ) ∧
      (ToString 0 = [48] ∧
        (ToString (-123 : ℤ)).headD 0 ≠ 43 ∧
        ((-123 : ℤ) < 0 ↔ (ToString (-123 : ℤ)).headD 0 = 45) ∧
        (∀ d, (ToString (-123 : ℤ)).getLastD d ≠ 46) ∧
        ((ToString (-123 : ℤ)).take 2 = [45, 48] →
          (ToString (-123 : ℤ)).take 3 = [45, 48, 46])) :=
  ⟨by decide, format_sign_canonical (-123) (by decide)⟩

end ZetasqlNumeric
